import Mathlib

/-!
# Verification of the pond windowing / aggregation core

This development shallowly embeds the data model and algorithms of the pond
time-series library (Duration / Period / Window index machinery,
WindowedCollection streaming aggregator, Collection key map and quantile,
and the reduction function library) and settles the specification claims
C1-C10 against the embedded code.

Conventions used throughout:
* JavaScript numbers are idealised as exact rationals (`ℚ`); timestamps,
  which the source stores in JavaScript `Date` objects, are integers (`ℤ`),
  and constructing a `Date` from a fractional number truncates toward zero
  (ECMA `TimeClip` / `ToIntegerOrInfinity`), modelled by `jsTrunc`.
* JavaScript strings are modelled as `List Char`.
* Missing values (`null` / `undefined` / `NaN`) are conflated into `none` of
  an `Option` type; theorems that involve arithmetic only ever apply it to
  lists proven to be free of missing values, where the conflation is exact.
-/

namespace Pond

/-- Truncation toward zero: the conversion a JavaScript `Date` applies to a
fractional milliseconds value (`TimeClip` → `ToIntegerOrInfinity`). -/
def jsTrunc (q : ℚ) : ℤ := if q < 0 then ⌈q⌉ else ⌊q⌋

/-! ## Decimal digits: JavaScript number→string and parseInt on digit runs -/

/-- Is `c` an ASCII decimal digit. -/
def isDigitC (c : Char) : Bool := '0' ≤ c && c ≤ '9'

/-- The value of an ASCII digit character. -/
def digitVal (c : Char) : ℕ := c.toNat - 48

/-- The ASCII digit character for a value `< 10`. -/
def digitChar (n : ℕ) : Char := Char.ofNat (48 + n)

/-- `parseInt(s, 10)` restricted to a non-empty all-digit run (the only way
the embedded code applies it): the base-10 value of the digit characters. -/
def parseValC (cs : List Char) : ℕ := cs.foldl (fun a c => 10 * a + digitVal c) 0

/-- All characters are ASCII digits. -/
def allDigits (cs : List Char) : Bool := cs.all isDigitC

/-- Decimal rendering of a natural number, fuelled so that it is structural
(and hence kernel-computable). Models the JavaScript template conversion
`${n}` of an integer. -/
def natToCharsAux : ℕ → ℕ → List Char
  | 0, _ => []
  | fuel+1, n =>
    if n < 10 then [digitChar n]
    else natToCharsAux fuel (n / 10) ++ [digitChar (n % 10)]

/-- Decimal rendering of a natural number. -/
def natToChars (n : ℕ) : List Char := natToCharsAux (n + 1) n

/-- Decimal rendering of an integer (JavaScript `${i}` for an integer). -/
def intToChars (i : ℤ) : List Char :=
  if i < 0 then '-' :: natToChars (-i).toNat else natToChars i.toNat

/-! ## Duration (duration.js, string shorthand constructor)

The source `Duration` constructor for a shorthand string `"<int><unit>"`
looks the unit up in `SHORT_UNITS` and stores `multiplier * SHORT_UNITS[unit]`
fractional milliseconds, remembering the original string for `toString()`. -/

/-- The shorthand duration units of duration.js `SHORT_UNITS`. -/
inductive DUnit | n | u | l | s | m | h | d | w
deriving DecidableEq

/-- The shorthand character of a unit. -/
def DUnit.char : DUnit → Char
  | .n => 'n' | .u => 'u' | .l => 'l' | .s => 's'
  | .m => 'm' | .h => 'h' | .d => 'd' | .w => 'w'

/-- Milliseconds per unit: the `SHORT_UNITS` table of duration.js. -/
def DUnit.ms : DUnit → ℚ
  | .n => 1 / 1000000
  | .u => 1 / 1000
  | .l => 1
  | .s => 1000
  | .m => 60 * 1000
  | .h => 60 * 60 * 1000
  | .d => 24 * 60 * 60 * 1000
  | .w => 7 * 24 * 60 * 60 * 1000

/-- `SHORT_UNITS` lookup by character (0 for a non-unit character, which the
source would read as `undefined` and produce `NaN`; never reached here). -/
def shortUnitMs (c : Char) : ℚ :=
  if c = 'n' then 1 / 1000000
  else if c = 'u' then 1 / 1000
  else if c = 'l' then 1
  else if c = 's' then 1000
  else if c = 'm' then 60 * 1000
  else if c = 'h' then 60 * 60 * 1000
  else if c = 'd' then 24 * 60 * 60 * 1000
  else if c = 'w' then 7 * 24 * 60 * 60 * 1000
  else 0

/-- A `Duration` constructed from the shorthand string
`natToChars num ++ [unit.char]`, e.g. `duration("30m")`. -/
structure DurS where
  num : ℕ
  unit : DUnit
deriving DecidableEq

/-- `valueOf()`: fractional milliseconds of the duration. -/
def DurS.val (dd : DurS) : ℚ := dd.num * dd.unit.ms

/-- `toString()`: the original shorthand string. -/
def DurS.chars (dd : DurS) : List Char := natToChars dd.num ++ [dd.unit.char]

/-- The whole-millisecond units among those the index-string decoder accepts:
`l`, `s`, `m`, `h`, `d` (excluding the fractional `n`, `u` and the
decoder-rejected `w`). -/
def DUnit.isCoreWhole : DUnit → Bool
  | .l | .s | .m | .h | .d => true
  | _ => false

/-! ## Period (period.js)

A `Period` is a frequency (a `Duration`) plus an offset (epoch ms of the
offset `Time`, an integer, default 0). -/

/-- `Period.isAligned(t)`: the source computes `((t - offset) / frequency) % 1
=== 0`, i.e. whether the exact quotient is an integer. For `frequency = 0`
the JavaScript quotient is `±Infinity` or `NaN`, never aligned. -/
def periodIsAligned (f : ℚ) (o : ℤ) (t : ℤ) : Bool :=
  if f = 0 then false else (((t : ℚ) - o) / f).den = 1

/-- `Period.next(t)`: `index = ceil((t - offset)/frequency)`, candidate
`index * frequency + offset`; if the candidate equals `t`, bump by one
frequency. The result is wrapped in a `Time` (a `Date`), truncating any
fractional milliseconds toward zero. -/
def periodNext (f : ℚ) (o : ℤ) (t : ℤ) : ℤ :=
  let c : ℚ := ⌈((t : ℚ) - o) / f⌉ * f + o
  if c = t then jsTrunc (c + f) else jsTrunc c

/-! ## The index-string decoder (util.js)

`indexStringRegex = /^((([0-9]+)([smhdlun]))@)*(([0-9]+)([smhdlun]))(\+([0-9]+))*-([0-9]+)$/`

Note the unit character class is `[smhdlun]`: it does NOT include `w`.
The regex language is locally deterministic (digits, unit letters, `@`,
`+` and `-` are pairwise disjoint), so a fuelled recursive-descent parser
recognises exactly the same language; the capture groups used by
`decodeIndexString` are the LAST duration block (group 1, including its
trailing `@`), the frequency (group 5), the LAST `+offset` repetition
(group 9) and the index (group 10). -/

/-- The unit characters of the source regex character class `[smhdlun]`. -/
def unitChars : List Char := ['s', 'm', 'h', 'd', 'l', 'u', 'n']

/-- Is `c` in the regex unit class `[smhdlun]`. -/
def isUnitC (c : Char) : Bool := unitChars.contains c

/-- The capture structure of a period-form index string. -/
structure RawIndexParts where
  /-- The leading `<digits><unit>@` blocks, in order. -/
  blocks : List (List Char × Char)
  /-- Digits of the frequency part. -/
  freqDs : List Char
  /-- Unit character of the frequency part. -/
  freqU : Char
  /-- Digit groups of the `+<digits>` offset repetitions, in order. -/
  offs : List (List Char)
  /-- Digits of the trailing index. -/
  idxDs : List Char
deriving DecidableEq

/-- After the unit of a `D u` pair, decide how the head parse continues:
on `'@'` the pair was a duration block and parsing recurses via `k`;
otherwise the pair was the frequency and the remainder is returned as-is. -/
def parseHeadStep (ds : List Char) (u : Char)
    (k : List Char → Option (List (List Char × Char) × (List Char × Char) × List Char)) :
    List Char → Option (List (List Char × Char) × (List Char × Char) × List Char)
  | [] => some ([], (ds, u), [])
  | c :: rest3 =>
    if c = '@' then
      match k rest3 with
      | some (bs, fr, tail) => some ((ds, u) :: bs, fr, tail)
      | none => none
    else some ([], (ds, u), c :: rest3)

/-- After the leading digits of a `D u` pair, the next character must be a
unit letter, after which `parseHeadStep` decides how to continue. -/
def parseHeadAfter
    (k : List Char → Option (List (List Char × Char) × (List Char × Char) × List Char))
    (ds : List Char) :
    List Char → Option (List (List Char × Char) × (List Char × Char) × List Char)
  | [] => none
  | u :: rest2 => if isUnitC u then parseHeadStep ds u k rest2 else none

/-- Parse the head of the string: `((D u @)* (D u))`, returning the blocks,
the frequency pair and the unconsumed remainder. Fuelled to be structural. -/
def parseHead : ℕ → List Char → Option (List (List Char × Char) × (List Char × Char) × List Char)
  | 0, _ => none
  | fuel+1, cs =>
    if (cs.takeWhile isDigitC).isEmpty then none
    else parseHeadAfter (parseHead fuel) (cs.takeWhile isDigitC) (cs.dropWhile isDigitC)

/-- Parse the `(\+([0-9]+))*` offset repetitions, returning the digit groups
and the unconsumed remainder. Fuelled to be structural. -/
def parseOffs : ℕ → List Char → Option (List (List Char) × List Char)
  | 0, _ => none
  | fuel+1, cs =>
    match cs with
    | '+' :: cs2 =>
      if (cs2.takeWhile isDigitC).isEmpty then none
      else
        match parseOffs fuel (cs2.dropWhile isDigitC) with
        | some (os, tail) => some (cs2.takeWhile isDigitC :: os, tail)
        | none => none
    | _ => some ([], cs)

/-- Parse the trailing `-([0-9]+)$`. -/
def parseIdxTail (cs : List Char) : Option (List Char) :=
  match cs with
  | '-' :: rest => if rest.isEmpty then none else if allDigits rest then some rest else none
  | _ => none

/-- Full parse of a period-form index string against `indexStringRegex`. -/
def parseIndexChars (cs : List Char) : Option RawIndexParts :=
  match parseHead (cs.length + 1) cs with
  | none => none
  | some (bs, fr, rest) =>
    match parseOffs (rest.length + 1) rest with
    | none => none
    | some (os, rest2) =>
      match parseIdxTail rest2 with
      | none => none
      | some ids => some ⟨bs, fr.1, fr.2, os, ids⟩

/-- `isIndexString(s)`: `indexStringRegex.test(s)`. -/
def isIndexString (cs : List Char) : Bool := (parseIndexChars cs).isSome

/-- The decoded frequency in ms: `duration(<group 5>)`, whose unanchored
shorthand regex reads the digits and unit of the frequency part. -/
def decodeFreqVal (p : RawIndexParts) : ℚ := (parseValC p.freqDs : ℚ) * shortUnitMs p.freqU

/-- The decoded duration in ms: group 1 is the LAST `<digits><unit>@` block
(`duration` on it reads its digits and unit, ignoring the trailing `@`);
if there is no block, the duration defaults to the decoded frequency. -/
def decodeDurVal (p : RawIndexParts) : ℚ :=
  match p.blocks.getLast? with
  | some b => (parseValC b.1 : ℚ) * shortUnitMs b.2
  | none => decodeFreqVal p

/-- The decoded integer index: `parseInt(<group 10>, 10)`. -/
def decodeIdx (p : RawIndexParts) : ℕ := parseValC p.idxDs

/-- JavaScript `s.split(sep)` for a single-character separator. -/
def splitOnC (sep : Char) : List Char → List (List Char)
  | [] => [[]]
  | c :: rest =>
    match splitOnC sep rest with
    | [] => [[c]]
    | g :: gs => if c = sep then [] :: g :: gs else (c :: g) :: gs

/-- `Util.timeRangeFromIndexString` on a period-form index string: decodes
`(period, duration, index)` and returns the closed range
`[index * frequency, index * frequency + duration]` in ms (the period's
offset, if any, is parsed but not used). The calendar branches of the source
(`YYYY`, `YYYY-MM`, `YYYY-MM-DD`, reached when the string does not split
into exactly two parts or fails `isIndexString`) delegate to the external
moment-timezone calendar library and are not modelled; they are represented
by `none` here, and every use in this development applies the function to a
period-form string only, on which the source takes exactly the modelled
branch. -/
def timeRangeFromIndexChars (cs : List Char) : Option (ℚ × ℚ) :=
  if (splitOnC '-' cs).length = 2 then
    match parseIndexChars cs with
    | some p =>
      some ((decodeIdx p : ℚ) * decodeFreqVal p,
            (decodeIdx p : ℚ) * decodeFreqVal p + decodeDurVal p)
    | none => none
  else none

/-! ## The declarative regex language and parser correctness -/

/-- A non-empty run of ASCII digits. -/
def DigitRun (ds : List Char) : Prop := ds ≠ [] ∧ ∀ c ∈ ds, isDigitC c = true

/-- The language of the period-form index grammar
`^((D unit)@)* (D unit) (\+D)* - D$` where `D = [0-9]+` and `unit` ranges
over the given character class, stated declaratively as the existence of a
decomposition of the string. -/
def IndexLang (units : List Char) (cs : List Char) : Prop :=
  ∃ (bs : List (List Char × Char)) (fds : List Char) (fu : Char)
    (os : List (List Char)) (ids : List Char),
    cs = (bs.map (fun b => b.1 ++ [b.2, '@'])).flatten ++ fds ++ [fu] ++
         (os.map (fun o => '+' :: o)).flatten ++ '-' :: ids ∧
    (∀ b ∈ bs, DigitRun b.1 ∧ b.2 ∈ units) ∧
    DigitRun fds ∧ fu ∈ units ∧
    (∀ o ∈ os, DigitRun o) ∧
    DigitRun ids

/-! ### Completeness: every string of the language parses -/

/-- Right-nested rendering of the `(D u @)*` blocks in front of a tail. -/
def renderBlocks (bs : List (List Char × Char)) (tail : List Char) : List Char :=
  bs.foldr (fun b acc => b.1 ++ b.2 :: '@' :: acc) tail

/-- Right-nested rendering of the `(\+D)*` offset groups in front of a tail. -/
def renderOffs (os : List (List Char)) (tail : List Char) : List Char :=
  os.foldr (fun o acc => '+' :: (o ++ acc)) tail

/-! ## Window (window.js)

A `Window` pairs a `Duration` with a `Period` (frequency + offset); created
from a single duration, the frequency equals the duration (tumbling window)
and the offset is 0. -/

/-- A `Window`: `window(duration(dur), period(duration(freq), time(offset)))`. -/
structure WindowS where
  dur : DurS
  freq : DurS
  offset : ℤ
deriving DecidableEq

/-- `window(duration(d))`: frequency defaults to the duration, offset 0. -/
def windowOf (dd : DurS) : WindowS := ⟨dd, dd, 0⟩

/-- `Period.toString()`: `"<freq>"`, or `"<freq>+<offset>"` when the offset
is nonzero (0 is falsy in JavaScript). -/
def periodChars (w : WindowS) : List Char :=
  w.freq.chars ++ (if w.offset = 0 then [] else '+' :: intToChars w.offset)

/-- `Window.toString()`: the period string when the period frequency equals
the window duration (value comparison), else `"<duration>@<period>"`. This
string is the prefix of every index key the window produces. -/
def windowChars (w : WindowS) : List Char :=
  if w.freq.val = w.dur.val then periodChars w
  else w.dur.chars ++ '@' :: periodChars w

/-- The period indexes enumerated by `Window.getIndexSet(t)` for a single
`Time t`:
`scanBegin = period.next(time(+t - +duration))` (the `time(...)` constructor
truncates a fractional argument), `periodIndex = ceil(scanBegin / freq)`,
then the loop `while (periodIndex * freq <= t) { add; periodIndex += 1 }`.
For `freq > 0` the loop visits exactly `periodIndex, ..., floor(t / freq)`,
which is how it is written here. -/
def scanBeginOf (w : WindowS) (t : ℤ) : ℤ :=
  periodNext w.freq.val w.offset (jsTrunc ((t : ℚ) - w.dur.val))

/-- `periodIndex = Math.ceil(+scanBegin / +freq)`, the first index the loop
tries. -/
def periodIndex0 (w : WindowS) (t : ℤ) : ℤ :=
  ⌈((scanBeginOf w t : ℤ) : ℚ) / w.freq.val⌉

/-- The last index the loop can add: the largest `i` with `i * freq ≤ t`. -/
def periodIndexHi (w : WindowS) (t : ℤ) : ℤ := ⌊(t : ℚ) / w.freq.val⌋

def getIndexList (w : WindowS) (t : ℤ) : List ℤ :=
  (List.range (periodIndexHi w t + 1 - periodIndex0 w t).toNat).map
    (fun j : ℕ => periodIndex0 w t + (j : ℤ))

/-- The index strings of `Window.getIndexSet(t)`, in order:
`"<prefix>-<periodIndex>"`. -/
def getIndexKeys (w : WindowS) (t : ℤ) : List (List Char) :=
  (getIndexList w t).map (fun i => windowChars w ++ '-' :: intToChars i)

/-! ## WindowedCollection (windowedcollection.js), ungrouped -/

/-- An event: an integer millisecond timestamp plus an opaque payload
standing for its `Immutable.Map` of data. -/
structure Ev where
  ts : ℤ
  payload : ℕ
deriving DecidableEq

/-- The `Trigger` enum of types.js. -/
inductive Trigger
  | perEvent
  | onDiscardedWindow
deriving DecidableEq

/-- Modelled from the spec: `SortedCollection.addEvent` keeps its event list
in chronological order, inserting a new event after any existing event with
the same or an earlier timestamp (sortedcollection.js itself is not among
the sources). -/
def insertChron (e : Ev) : List Ev → List Ev
  | [] => [e]
  | x :: xs => if e.ts < x.ts then e :: x :: xs else x :: insertChron e xs

/-- Lookup in an insertion-ordered association list (the model used here for
the `Immutable.Map` of buckets). -/
def assocGet (k : List Char) : List (List Char × List Ev) → Option (List Ev)
  | [] => none
  | p :: rest => if p.1 = k then some p.2 else assocGet k rest

/-- `map.set(k, v)`: replace in place if the key is present, else append. -/
def assocSet (k : List Char) (v : List Ev) :
    List (List Char × List Ev) → List (List Char × List Ev)
  | [] => [(k, v)]
  | p :: rest => if p.1 = k then (k, v) :: rest else p :: assocSet k v rest

/-- The keep test of `WindowedCollection.addEvent`: a bucket survives exactly
when the incoming event timestamp is strictly before the end of the time
range its (ungrouped) key decodes to. Every key in this development is
produced by `getIndexKeys` and decodes; a key the decoder rejects would make
the source throw, and is modelled as kept. -/
def bucketKept (ets : ℤ) (k : List Char) : Bool :=
  match timeRangeFromIndexChars k with
  | some r => decide ((ets : ℚ) < r.2)
  | none => true

/-- The per-key body of the `keys.forEach` loop in
`WindowedCollection.addEvent`: insert the event into the bucket for the key
(creating the bucket if needed) and, under the `perEvent` trigger, push the
updated bucket onto the emit list. -/
def wcIngest (tr : Trigger) (e : Ev)
    (p : List (List Char × List Ev) × List (List Char × List Ev))
    (k : List Char) :
    List (List Char × List Ev) × List (List Char × List Ev) :=
  (assocSet k (insertChron e ((assocGet k p.1).getD [])) p.1,
   if tr = Trigger.perEvent then
     p.2 ++ [(k, insertChron e ((assocGet k p.1).getD []))]
   else p.2)

/-- One `WindowedCollection.addEvent` call (ungrouped): add the event to the
bucket of every key of `getIndexSet`, then split the buckets with
`bucketKept`, emit the discarded ones when the trigger is
`onDiscardedWindow`, and keep the rest as the new state. Returns
`(new state, emitted buckets in order)`. -/
def wcAddEvent (w : WindowS) (tr : Trigger) (st : List (List Char × List Ev))
    (e : Ev) :
    List (List Char × List Ev) × List (List Char × List Ev) :=
  ((((getIndexKeys w e.ts).foldl (wcIngest tr e) (st, [])).1.filter
      (fun p => bucketKept e.ts p.1)),
   ((getIndexKeys w e.ts).foldl (wcIngest tr e) (st, [])).2 ++
     (if tr = Trigger.onDiscardedWindow then
       (((getIndexKeys w e.ts).foldl (wcIngest tr e) (st, [])).1.filter
         (fun p => !bucketKept e.ts p.1))
     else []))

/-- One feeding step: apply `addEvent` to the current state and append what
it emitted to the log. -/
def wcStep (w : WindowS) (tr : Trigger)
    (acc : List (List Char × List Ev) × List (List Char × List Ev)) (e : Ev) :
    List (List Char × List Ev) × List (List Char × List Ev) :=
  ((wcAddEvent w tr acc.1 e).1, acc.2 ++ (wcAddEvent w tr acc.1 e).2)

/-- Feeding a list of events through `addEvent` one at a time from an empty
`WindowedCollection`, concatenating everything emitted, in order. -/
def wcRun (w : WindowS) (tr : Trigger) (es : List Ev) :
    List (List Char × List Ev) × List (List Char × List Ev) :=
  es.foldl (wcStep w tr) ([], [])

/-- The period index of the window an event falls in (for a tumbling
window the unique emitted index, `floor(ts / freq)`). -/
def windowIdx (w : WindowS) (e : Ev) : ℤ := ⌊(e.ts : ℚ) / w.freq.val⌋

/-- The index-string key of period index `i` for window `w`. -/
def keyOfIdx (w : WindowS) (i : ℤ) : List Char :=
  windowChars w ++ '-' :: intToChars i

/-! ## Claims C2 and C3: the round trip and the grammar -/

/-- The unit character class `[nulsmhdw]` of the spec grammar (the spec
includes `w`; the decoder regex of util.js does not). -/
def specUnitChars : List Char := ['n', 'u', 'l', 's', 'm', 'h', 'd', 'w']

/-! ## Claim C4: the Collection key map (collection.js in part_002)

Events are reduced to their key string (modelled as an opaque `ℕ`, standing
for `event.getKey().toString()`) plus a payload; the `Immutable.Map` from
key to `Immutable.Set` of positions is an insertion-ordered association
list whose position sets are insertion-ordered duplicate-free lists. -/

/-- An event as the `Collection` key map sees it. -/
structure CEv where
  key : ℕ
  payload : ℕ
deriving DecidableEq

/-- The state of a `Collection`: its event list and its key map. -/
structure Coll where
  events : List CEv
  keyMap : List (ℕ × List ℕ)
deriving DecidableEq

def kmGet (k : ℕ) : List (ℕ × List ℕ) → Option (List ℕ)
  | [] => none
  | p :: rest => if p.1 = k then some p.2 else kmGet k rest

def kmSet (k : ℕ) (v : List ℕ) : List (ℕ × List ℕ) → List (ℕ × List ℕ)
  | [] => [(k, v)]
  | p :: rest => if p.1 = k then (k, v) :: rest else p :: kmSet k v rest

def kmRemove (k : ℕ) (m : List (ℕ × List ℕ)) : List (ℕ × List ℕ) :=
  m.filter (fun p => p.1 ≠ k)

/-- `Immutable.Set.add`: append if not already present. -/
def setAdd (i : ℕ) (s : List ℕ) : List ℕ := if i ∈ s then s else s ++ [i]

/-- `Collection.buildKeyMap`: rebuild from scratch, visiting the events in
order with their positions. -/
def buildKeyMap (es : List CEv) : List (ℕ × List ℕ) :=
  es.enum.foldl
    (fun m p => kmSet p.2.key (setAdd p.1 ((kmGet p.2.key m).getD [])) m) []

/-- Constructing a `Collection` from an event list. -/
def collOfList (es : List CEv) : Coll := ⟨es, buildKeyMap es⟩

def collEmpty : Coll := ⟨[], []⟩

/-- `Collection.addEvent(event, dedup)` with `dedup` a boolean: on a key
conflict with `dedup` set, the existing events of that key are filtered out
of the list and the key's position set is reset before the new event is
appended; in both paths only the added key's entry of the key map is
rewritten. -/
def addEventC (c : Coll) (e : CEv) (dedup : Bool) : Coll :=
  if dedup = true ∧ (kmGet e.key c.keyMap).getD [] ≠ [] then
    ⟨(c.events.filter (fun d => d.key ≠ e.key)) ++ [e],
     kmSet e.key
       (setAdd ((c.events.filter (fun d => d.key ≠ e.key)) ++ [e]).length.pred [])
       c.keyMap⟩
  else
    ⟨c.events ++ [e],
     kmSet e.key
       (setAdd (c.events ++ [e]).length.pred ((kmGet e.key c.keyMap).getD []))
       c.keyMap⟩

/-- `Collection.removeEvents(key)`: drop the events at the key's recorded
positions (re-packing the list, so every later event moves down) and delete
only that key's entry from the key map. The source crashes when the key is
absent (`indices.has` on `undefined`); the model reads an empty set then. -/
def removeEvents (c : Coll) (k : ℕ) : Coll :=
  ⟨(c.events.enum.filter (fun p => p.1 ∉ (kmGet k c.keyMap).getD [])).map Prod.snd,
   kmRemove k c.keyMap⟩

/-- The key-index invariant of the claim: every key's recorded position set
is exactly the set of positions of the current event sequence holding an
event of that key. -/
def keyMapCorrect (c : Coll) : Prop :=
  ∀ k i : ℕ, i ∈ (kmGet k c.keyMap).getD [] ↔
    (c.events.get? i).map CEv.key = some k

/-! ## Claim C6: Collection.quantile (collection.js + functions.js) -/

/-- The `InterpolationType` enum of functions.js. -/
inductive Interp
  | linear
  | lower
  | higher
  | nearest
  | midpoint
deriving DecidableEq

/-- The numeric enum values (`linear = 1`, ..., `midpoint = 5`). -/
def interpCode : Interp → ℕ
  | .linear => 1
  | .lower => 2
  | .higher => 3
  | .nearest => 4
  | .midpoint => 5

/-- Insertion step of the sort-by-field-value used by `this.sort(column)`. -/
def sortedInsert (x : ℚ) : List ℚ → List ℚ
  | [] => [x]
  | y :: ys => if x ≤ y then x :: y :: ys else y :: sortedInsert x ys

def sortQ (l : List ℚ) : List ℚ := l.foldr sortedInsert []

/-- `(sorted.size() - 1) * i` at cut point `i = k/n`. -/
def qPos (len n k : ℕ) : ℚ := ((len : ℚ) - 1) * k / n

/-- `index = Math.floor((sorted.size() - 1) * i)`. -/
def qIdx (len n k : ℕ) : ℤ := ⌊qPos len n k⌋

/-- The interpolation chain exactly as collection.js writes it: its
conditions test the truthiness of the ENUM MEMBERS
(`functions_1.InterpolationType.lower || fraction === 0`, then
`InterpolationType.linear`, ...), not the `interp` argument, so the first
branch is always taken and the result is always `v0`. The final `v0` stands
for the `undefined` a JavaScript `v` would keep if every test failed; no
test can fail. -/
def quantilePickCode (fraction v0 v1 : ℚ) : ℚ :=
  if interpCode Interp.lower ≠ 0 ∨ fraction = 0 then v0
  else if interpCode Interp.linear ≠ 0 then v0 + (v1 - v0) * fraction
  else if interpCode Interp.higher ≠ 0 then v1
  else if interpCode Interp.nearest ≠ 0 then (if fraction < 1/2 then v0 else v1)
  else if interpCode Interp.midpoint ≠ 0 then (v0 + v1) / 2
  else v0

/-- The interpolation policy as the spec describes it, dispatching on the
supplied `interp`. -/
def quantilePickSpec (interp : Interp) (fraction v0 v1 : ℚ) : ℚ :=
  if fraction = 0 then v0
  else match interp with
    | .linear => v0 + (v1 - v0) * fraction
    | .lower => v0
    | .higher => v1
    | .nearest => if fraction < 1/2 then v0 else v1
    | .midpoint => (v0 + v1) / 2

/-- One loop iteration of `quantile` at cut point `k/n`: guarded by
`index < sorted.size() - 1`, reads `v0 = sorted.at(index)`,
`v1 = sorted.at(index + 1)` and applies the interpolation chain. -/
def quantileCellWith (pick : ℚ → ℚ → ℚ → ℚ) (sorted : List ℚ) (n k : ℕ) :
    Option ℚ :=
  if qIdx sorted.length n k < (sorted.length : ℤ) - 1 then
    some (pick (qPos sorted.length n k - qIdx sorted.length n k)
      ((sorted.get? (qIdx sorted.length n k).toNat).getD 0)
      ((sorted.get? ((qIdx sorted.length n k).toNat + 1)).getD 0))
  else none

/-- `Collection.quantile(n, column, interp)` on the list of field values:
error (`none`) when `n` exceeds the collection size, else the loop
`for (i = 1/n; i < 1; i += 1/n)` — the cut points `k/n`, `k = 1..n-1` in
exact arithmetic — over the sorted values. -/
def quantileRunWith (pick : ℚ → ℚ → ℚ → ℚ) (n : ℕ) (vals : List ℚ) :
    Option (List ℚ) :=
  if vals.length < n then none
  else some ((List.range (n - 1)).filterMap
    (fun k0 => quantileCellWith pick (sortQ vals) n (k0 + 1)))

/-- The source `quantile`: the `interp` argument is accepted and then never
consulted by the interpolation chain. -/
def quantileC (n : ℕ) (vals : List ℚ) (interp : Interp) : Option (List ℚ) :=
  quantileRunWith quantilePickCode n vals

/-- From the spec: `quantile` dispatching on the supplied policy. -/
def quantileSpecFn (n : ℕ) (vals : List ℚ) (interp : Interp) : Option (List ℚ) :=
  quantileRunWith (quantilePickSpec interp) n vals

/-! ## Claims C9 and C10: the stdev and median reducers (functions.js)

A value list is `List (Option ℚ)`: `none` conflates the missing values
(`null`, `undefined`, `NaN`). Sums over a cleaned list are taken over its
present values, which matches the JavaScript arithmetic whenever no missing
value is left after cleaning — the case the claims are about. -/

/-- The exported cleaning strategies (`filter.*`). -/
inductive CleanS
  | keepMissing
  | ignoreMissing
  | zeroMissing
  | propagateMissing
  | noneIfEmpty
deriving DecidableEq

/-- Apply a cleaning strategy; `none` models the JavaScript `null` return. -/
def applyClean : CleanS → List (Option ℚ) → Option (List (Option ℚ))
  | .keepMissing, vs => some vs
  | .ignoreMissing, vs => some (vs.filter (fun v => v.isSome))
  | .zeroMissing, vs => some (vs.map (fun v => if v.isSome then v else some 0))
  | .propagateMissing, vs =>
      if (vs.filter (fun v => v.isSome)).length = vs.length then some vs else none
  | .noneIfEmpty, vs => if vs.length = 0 then none else some vs

/-- `avg(clean)(values)`: clean, then the total divided by the CLEANED
length. -/
def avgF (cs : CleanS) (vs : List (Option ℚ)) : Option ℚ :=
  match applyClean cs vs with
  | none => none
  | some cv => some ((cv.filterMap id).sum / cv.length)

/-- The radicand handed to `Math.sqrt` by `stdev(clean)(values)`: clean,
take `mean = avg(clean)(cleanValues)` (the strategy is applied a second
time, to the already-cleaned list), sum the squared deviations of the
cleaned values, and divide by `values.length` — the length of the
ORIGINAL, uncleaned list. `Math.sqrt` is strictly increasing on the
nonnegative reals, so the radicand carries all the content. -/
def stdevRad (cs : CleanS) (vs : List (Option ℚ)) : Option ℚ :=
  match applyClean cs vs with
  | none => none
  | some cv =>
    match avgF cs cv with
    | none => none
    | some mean =>
      some (((cv.filterMap id).map (fun v => (v - mean) ^ 2)).sum / vs.length)

/-! ### median -/

/-- Lexicographic (UTF-16 code unit) strict order on strings: what the
default, comparator-less JavaScript `Array.sort` uses after converting each
element to a string. -/
def jsStrLt : List Char → List Char → Bool
  | [], [] => false
  | [], _ :: _ => true
  | _ :: _, [] => false
  | a :: as, b :: bs =>
    if a = b then jsStrLt as bs
    else decide (a.toNat < b.toNat)

/-- Insertion step of the default sort; integer values compare by their
decimal string (`String(2) = "2"`, `String(10) = "10"`, so `"10" < "2"`). -/
def jsSortInsert (x : ℤ) : List ℤ → List ℤ
  | [] => [x]
  | y :: ys =>
    if jsStrLt (intToChars x) (intToChars y) then x :: y :: ys
    else y :: jsSortInsert x ys

/-- `cleanValues.sort()` for integer values: sorted by decimal string. -/
def jsSort (l : List ℤ) : List ℤ := l.foldr jsSortInsert []

/-- `median()(values)` (default `ignoreMissing` cleaning) over
integer-valued inputs, where the string-sort model is exact: sort the
present values BY STRING, then return the middle element (odd length) or
the mean of the two middle elements (even length). -/
def medianF (vs : List (Option ℤ)) : Option ℚ :=
  if (vs.filterMap id).length % 2 = 0 then
    some (((((jsSort (vs.filterMap id)).get?
        ((vs.filterMap id).length / 2)).getD 0 : ℤ) +
      (((jsSort (vs.filterMap id)).get?
        ((vs.filterMap id).length / 2 - 1)).getD 0 : ℤ) : ℚ) / 2)
  else
    some ((((jsSort (vs.filterMap id)).get?
      ((vs.filterMap id).length / 2)).getD 0 : ℚ))

/-! ## Claim C5: the Align processor's first event (align.js, concatenated
into src/packages/pond/lib/time.js) -/

/-- `Align.addEvent`, first-event branch (no previous event recorded):
record the event as `_previous`; if the event is aligned to the configured
period (frequency `f` ms, offset `o`) push it onto the local `eventList`;
then return `Immutable.List()` — a NEW empty list, not
`Immutable.List(eventList)`, so whatever was pushed is discarded. The
triple is (recorded previous, the local `eventList`, the returned list).
The alignment test is `this._period.isAligned(time(event.timestamp()))`,
i.e. `Period.isAligned` of period.js. -/
def alignFirstAddEvent (f : ℚ) (o : ℤ) (e : Ev) : Option Ev × List Ev × List Ev :=
  (some e, (if periodIsAligned f o e.ts = true then [e] else []), [])

/-! ## Theorems -/

@[simp] theorem jsTrunc_intCast (z : ℤ) : jsTrunc (z : ℚ) = z := by
  unfold jsTrunc
  split <;> simp

theorem digitChar_toNat {n : ℕ} (h : n < 10) : (digitChar n).toNat = 48 + n := by
  interval_cases n <;> rfl

theorem digitVal_digitChar {n : ℕ} (h : n < 10) : digitVal (digitChar n) = n := by
  interval_cases n <;> rfl

theorem isDigitC_digitChar {n : ℕ} (h : n < 10) : isDigitC (digitChar n) = true := by
  interval_cases n <;> rfl

theorem parseValC_append_singleton (xs : List Char) (c : Char) :
    parseValC (xs ++ [c]) = 10 * parseValC xs + digitVal c := by
  unfold parseValC
  rw [List.foldl_append]
  rfl

theorem natToCharsAux_spec :
    ∀ fuel n, n < 10 ^ (fuel + 1) →
      allDigits (natToCharsAux (fuel + 1) n) = true ∧
      natToCharsAux (fuel + 1) n ≠ [] ∧
      parseValC (natToCharsAux (fuel + 1) n) = n := by
  intro fuel
  induction fuel with
  | zero =>
    intro n hn
    norm_num at hn
    unfold natToCharsAux
    rw [if_pos hn]
    refine ⟨?_, by simp, ?_⟩
    · simp [allDigits, isDigitC_digitChar hn]
    · simp [parseValC, digitVal_digitChar hn]
  | succ fuel ih =>
    intro n hn
    unfold natToCharsAux
    by_cases h10 : n < 10
    · rw [if_pos h10]
      refine ⟨?_, by simp, ?_⟩
      · simp [allDigits, isDigitC_digitChar h10]
      · simp [parseValC, digitVal_digitChar h10]
    · rw [if_neg h10]
      have hdiv : n / 10 < 10 ^ (fuel + 1) := by
        apply Nat.div_lt_of_lt_mul
        calc n < 10 ^ (fuel + 1 + 1) := hn
        _ = 10 * 10 ^ (fuel + 1) := by ring
      obtain ⟨hall, hne, hval⟩ := ih (n / 10) hdiv
      have hmod : n % 10 < 10 := Nat.mod_lt _ (by norm_num)
      refine ⟨?_, by simp, ?_⟩
      · simp [allDigits] at hall ⊢
        exact ⟨hall, isDigitC_digitChar hmod⟩
      · rw [parseValC_append_singleton, hval, digitVal_digitChar hmod]
        exact Nat.div_add_mod n 10

theorem natToChars_spec (n : ℕ) :
    allDigits (natToChars n) = true ∧ natToChars n ≠ [] ∧
      parseValC (natToChars n) = n := by
  have h : n < 10 ^ (n + 1) := by
    calc n < 2 ^ n := Nat.lt_two_pow n
    _ ≤ 10 ^ n := Nat.pow_le_pow_left (by norm_num) n
    _ ≤ 10 ^ (n + 1) := Nat.pow_le_pow_right (by norm_num) (Nat.le_succ n)
  exact natToCharsAux_spec n n h

theorem allDigits_natToChars (n : ℕ) : allDigits (natToChars n) = true :=
  (natToChars_spec n).1

theorem natToChars_ne_nil (n : ℕ) : natToChars n ≠ [] :=
  (natToChars_spec n).2.1

theorem parseValC_natToChars (n : ℕ) : parseValC (natToChars n) = n :=
  (natToChars_spec n).2.2

theorem allDigits_append {xs ys : List Char} (hx : allDigits xs = true)
    (hy : allDigits ys = true) : allDigits (xs ++ ys) = true := by
  simp [allDigits] at *
  exact ⟨hx, hy⟩

theorem shortUnitMs_char (du : DUnit) : shortUnitMs du.char = du.ms := by
  cases du <;> rfl

theorem DUnit.isCoreWhole_ms {du : DUnit} (hw : du.isCoreWhole = true) :
    ∃ z : ℕ, du.ms = (z : ℚ) ∧ 1 ≤ z := by
  cases du
  case n => exact absurd hw (by decide)
  case u => exact absurd hw (by decide)
  case w => exact absurd hw (by decide)
  case l => exact ⟨1, by norm_num [DUnit.ms]⟩
  case s => exact ⟨1000, by norm_num [DUnit.ms]⟩
  case m => exact ⟨60000, by norm_num [DUnit.ms]⟩
  case h => exact ⟨3600000, by norm_num [DUnit.ms]⟩
  case d => exact ⟨86400000, by norm_num [DUnit.ms]⟩

theorem periodIsAligned_iff {f : ℚ} (hf : f ≠ 0) (o t : ℤ) :
    periodIsAligned f o t = true ↔ ∃ k : ℤ, ((t : ℚ) - o) = k * f := by
  unfold periodIsAligned
  rw [if_neg hf]
  constructor
  · intro h
    refine ⟨(((t : ℚ) - o) / f).num, ?_⟩
    have hden : (((t : ℚ) - o) / f).den = 1 := of_decide_eq_true h
    have hq : ((((t : ℚ) - o) / f).num : ℚ) = (((t : ℚ) - o) / f) :=
      Rat.coe_int_num_of_den_eq_one hden
    rw [hq, div_mul_cancel₀ ((t : ℚ) - o) hf]
  · rintro ⟨k, hk⟩
    have : ((t : ℚ) - o) / f = (k : ℚ) := by
      rw [hk]
      field_simp
    rw [this]
    simp

theorem periodNext_int {fz : ℤ} (hf : 1 ≤ fz) (o t : ℤ) :
    periodNext (fz : ℚ) o t = ⌈((t : ℚ) - o) / fz⌉ * fz + o +
      (if ⌈((t : ℚ) - o) / fz⌉ * fz + o = t then fz else 0) := by
  unfold periodNext
  have hcast : (⌈((t : ℚ) - o) / fz⌉ * fz + o : ℚ) =
      ((⌈((t : ℚ) - o) / fz⌉ * fz + o : ℤ) : ℚ) := by push_cast; ring
  by_cases hc : (⌈((t : ℚ) - o) / fz⌉ * fz + o : ℚ) = t
  · rw [if_pos hc]
    have hz : ⌈((t : ℚ) - o) / fz⌉ * fz + o = t := by
      have := hc
      rw [hcast] at this
      exact_mod_cast this
    rw [if_pos hz, hc]
    have : ((t : ℚ) + fz) = ((t + fz : ℤ) : ℚ) := by push_cast; ring
    rw [this, jsTrunc_intCast, hz]
  · rw [if_neg hc]
    have hz : ¬(⌈((t : ℚ) - o) / fz⌉ * fz + o = t) := by
      intro h
      apply hc
      rw [hcast]
      exact_mod_cast h
    rw [if_neg hz, hcast, jsTrunc_intCast]
    ring

/-- For a whole-millisecond positive frequency, `next` lands strictly after
`t` and at most one frequency later. -/
theorem periodNext_bounds {fz : ℤ} (hf : 1 ≤ fz) (o t : ℤ) :
    t < periodNext (fz : ℚ) o t ∧ periodNext (fz : ℚ) o t ≤ t + fz := by
  rw [periodNext_int hf o t]
  have hfq : (0 : ℚ) < (fz : ℚ) := by exact_mod_cast hf
  have hceil : ((t : ℚ) - o) / fz ≤ (⌈((t : ℚ) - o) / fz⌉ : ℚ) := Int.le_ceil _
  have hge : (t : ℚ) ≤ (⌈((t : ℚ) - o) / fz⌉ : ℚ) * fz + o := by
    have := mul_le_mul_of_nonneg_right hceil (le_of_lt hfq)
    rw [div_mul_cancel₀ _ (ne_of_gt hfq)] at this
    linarith
  have hgez : t ≤ ⌈((t : ℚ) - o) / fz⌉ * fz + o := by
    have : ((⌈((t : ℚ) - o) / fz⌉ * fz + o : ℤ) : ℚ) =
        (⌈((t : ℚ) - o) / fz⌉ : ℚ) * fz + o := by push_cast; ring
    exact_mod_cast (by rw [this]; exact hge :
      ((t : ℤ) : ℚ) ≤ ((⌈((t : ℚ) - o) / fz⌉ * fz + o : ℤ) : ℚ))
  have hlt : (⌈((t : ℚ) - o) / fz⌉ : ℚ) < ((t : ℚ) - o) / fz + 1 :=
    Int.ceil_lt_add_one _
  have hub : ⌈((t : ℚ) - o) / fz⌉ * fz + o ≤ t + fz := by
    have := mul_lt_mul_of_pos_right hlt hfq
    rw [add_mul, div_mul_cancel₀ _ (ne_of_gt hfq), one_mul] at this
    have h2 : ((⌈((t : ℚ) - o) / fz⌉ * fz + o : ℤ) : ℚ) < ((t + fz : ℤ) : ℚ) := by
      push_cast
      linarith
    exact le_of_lt (by exact_mod_cast h2)
  by_cases hc : ⌈((t : ℚ) - o) / fz⌉ * fz + o = t
  · rw [if_pos hc]
    constructor
    · omega
    · omega
  · rw [if_neg hc]
    constructor
    · omega
    · omega

/-- `next` always lands on an aligned instant (whole-ms frequency). -/
theorem periodNext_aligned {fz : ℤ} (hf : 1 ≤ fz) (o t : ℤ) :
    periodIsAligned (fz : ℚ) o (periodNext (fz : ℚ) o t) = true := by
  rw [periodNext_int hf o t]
  have hfq : ((fz : ℚ)) ≠ 0 := by
    have : (0 : ℚ) < (fz : ℚ) := by exact_mod_cast hf
    exact ne_of_gt this
  rw [periodIsAligned_iff hfq]
  by_cases hc : ⌈((t : ℚ) - o) / fz⌉ * fz + o = t
  · rw [if_pos hc]
    exact ⟨⌈((t : ℚ) - o) / fz⌉ + 1, by push_cast; ring⟩
  · rw [if_neg hc]
    exact ⟨⌈((t : ℚ) - o) / fz⌉, by push_cast; ring⟩

/-- If `t` is already aligned, `next` is exactly `t` plus one frequency. -/
theorem periodNext_of_aligned {fz : ℤ} (hf : 1 ≤ fz) (o t : ℤ)
    (h : periodIsAligned (fz : ℚ) o t = true) :
    periodNext (fz : ℚ) o t = t + fz := by
  have hfq : ((fz : ℚ)) ≠ 0 := by
    have : (0 : ℚ) < (fz : ℚ) := by exact_mod_cast hf
    exact ne_of_gt this
  obtain ⟨k, hk⟩ := (periodIsAligned_iff hfq o t).mp h
  have hq : ((t : ℚ) - o) / fz = (k : ℚ) := by
    rw [hk]
    field_simp
  rw [periodNext_int hf o t, hq]
  have hceil : ⌈(k : ℚ)⌉ = k := Int.ceil_intCast k
  rw [hceil]
  have ht : k * fz + o = t := by
    have : ((k * fz + o : ℤ) : ℚ) = (t : ℚ) := by push_cast; linarith [hk]
    exact_mod_cast this
  rw [if_pos ht, ht]

theorem allDigits_iff (cs : List Char) :
    allDigits cs = true ↔ ∀ c ∈ cs, isDigitC c = true := by
  simp [allDigits, List.all_eq_true]

/-- Characters appearing at decision points are disjoint from digits. -/
theorem isDigitC_eq_false_of_isUnit {c : Char} (h : isUnitC c = true) :
    isDigitC c = false := by
  have hmem : c ∈ unitChars := by
    simpa [isUnitC] using h
  fin_cases hmem <;> rfl

theorem takeWhile_digits_of_head_not (ds rest : List Char)
    (hds : ∀ c ∈ ds, isDigitC c = true)
    (hrest : ∀ c, rest.head? = some c → isDigitC c = false) :
    (ds ++ rest).takeWhile isDigitC = ds ∧ (ds ++ rest).dropWhile isDigitC = rest := by
  induction ds with
  | nil =>
    cases rest with
    | nil => simp
    | cons c rest' =>
      have := hrest c rfl
      simp [List.takeWhile, List.dropWhile, this]
  | cons c ds' ih =>
    have hc : isDigitC c = true := hds c (by simp)
    have hds' : ∀ x ∈ ds', isDigitC x = true := fun x hx => hds x (by simp [hx])
    obtain ⟨h1, h2⟩ := ih hds'
    constructor
    · simpa [List.takeWhile_cons, hc] using h1
    · simpa [List.dropWhile_cons, hc] using h2

/-! ### Soundness: a successful parse yields a decomposition -/

theorem takeWhile_append_dropWhile_digits (cs : List Char) :
    cs.takeWhile isDigitC ++ cs.dropWhile isDigitC = cs :=
  List.takeWhile_append_dropWhile isDigitC cs

theorem mem_takeWhile_digits {cs : List Char} {c : Char}
    (h : c ∈ cs.takeWhile isDigitC) : isDigitC c = true :=
  List.mem_takeWhile_imp h

theorem parseHeadStep_sound {ds : List Char} {u : Char} {fuel : ℕ}
    {rest2 : List Char} {bs : List (List Char × Char)} {fr : List Char × Char}
    {tail : List Char}
    (ih : ∀ cs bs fr tail, parseHead fuel cs = some (bs, fr, tail) →
      cs = (bs.map (fun b => b.1 ++ [b.2, '@'])).flatten ++ fr.1 ++ [fr.2] ++ tail ∧
      (∀ b ∈ bs, DigitRun b.1 ∧ isUnitC b.2 = true) ∧
      DigitRun fr.1 ∧ isUnitC fr.2 = true)
    (hds : DigitRun ds) (hu : isUnitC u = true)
    (h : parseHeadStep ds u (parseHead fuel) rest2 = some (bs, fr, tail)) :
    ds ++ [u] ++ rest2 =
      (bs.map (fun b => b.1 ++ [b.2, '@'])).flatten ++ fr.1 ++ [fr.2] ++ tail ∧
    (∀ b ∈ bs, DigitRun b.1 ∧ isUnitC b.2 = true) ∧
    DigitRun fr.1 ∧ isUnitC fr.2 = true := by
  cases rest2 with
  | nil =>
    simp only [parseHeadStep, Option.some.injEq, Prod.mk.injEq] at h
    obtain ⟨hbs, hfr, htail⟩ := h
    subst hbs htail
    rw [← hfr]
    exact ⟨by simp, by simp, hds, hu⟩
  | cons c rest3 =>
    by_cases hat : c = '@'
    · subst hat
      simp only [parseHeadStep, if_pos rfl] at h
      cases hp : parseHead fuel rest3 with
      | some trip =>
        obtain ⟨bs2, fr2, tl2⟩ := trip
        rw [hp] at h
        simp only [Option.some.injEq, Prod.mk.injEq] at h
        obtain ⟨rfl, rfl, rfl⟩ := h
        obtain ⟨heq, hvb, hvf, hvu⟩ := ih rest3 _ _ _ hp
        refine ⟨?_, ?_, hvf, hvu⟩
        · rw [heq]
          simp
        · intro b hb
          rcases List.mem_cons.mp hb with hb | hb
          · subst hb; exact ⟨hds, hu⟩
          · exact hvb b hb
      | none => rw [hp] at h; exact absurd h (by simp)
    · simp only [parseHeadStep, if_neg hat, Option.some.injEq, Prod.mk.injEq] at h
      obtain ⟨hbs, hfr, htail⟩ := h
      subst hbs htail
      rw [← hfr]
      exact ⟨by simp, by simp, hds, hu⟩

theorem parseHead_sound :
    ∀ fuel cs bs fr tail, parseHead fuel cs = some (bs, fr, tail) →
      cs = (bs.map (fun b => b.1 ++ [b.2, '@'])).flatten ++ fr.1 ++ [fr.2] ++ tail ∧
      (∀ b ∈ bs, DigitRun b.1 ∧ isUnitC b.2 = true) ∧
      DigitRun fr.1 ∧ isUnitC fr.2 = true := by
  intro fuel
  induction fuel with
  | zero => intro cs bs fr tail h; simp [parseHead] at h
  | succ fuel ih =>
    intro cs bs fr tail h
    unfold parseHead at h
    by_cases hempty : (cs.takeWhile isDigitC).isEmpty
    · rw [if_pos hempty] at h; exact absurd h (by simp)
    rw [if_neg hempty] at h
    have hne : cs.takeWhile isDigitC ≠ [] := by
      intro hx; rw [hx] at hempty; simp at hempty
    have hcs : cs = cs.takeWhile isDigitC ++ cs.dropWhile isDigitC :=
      (takeWhile_append_dropWhile_digits cs).symm
    have hdsdig : DigitRun (cs.takeWhile isDigitC) :=
      ⟨hne, fun c hc => mem_takeWhile_digits hc⟩
    cases hre : cs.dropWhile isDigitC with
    | nil => rw [hre] at h; simp [parseHeadAfter] at h
    | cons u rest2 =>
      rw [hre] at h
      simp only [parseHeadAfter] at h
      by_cases hu : isUnitC u
      case neg => rw [if_neg hu] at h; exact absurd h (by simp)
      rw [if_pos hu] at h
      obtain ⟨heq, hvb, hvf, hvu⟩ := parseHeadStep_sound ih hdsdig hu h
      refine ⟨?_, hvb, hvf, hvu⟩
      rw [hcs, hre, ← heq]
      simp

theorem parseOffs_sound :
    ∀ fuel cs os tail, parseOffs fuel cs = some (os, tail) →
      cs = (os.map (fun o => '+' :: o)).flatten ++ tail ∧
      (∀ o ∈ os, DigitRun o) := by
  intro fuel
  induction fuel with
  | zero => intro cs os tail h; simp [parseOffs] at h
  | succ fuel ih =>
    intro cs os tail h
    unfold parseOffs at h
    split at h
    · rename_i cs2
      by_cases hempty : (cs2.takeWhile isDigitC).isEmpty
      · rw [if_pos hempty] at h; exact absurd h (by simp)
      rw [if_neg hempty] at h
      have hne : cs2.takeWhile isDigitC ≠ [] := by
        intro hx; rw [hx] at hempty; simp at hempty
      have hdsdig : DigitRun (cs2.takeWhile isDigitC) :=
        ⟨hne, fun c hc => mem_takeWhile_digits hc⟩
      cases hp : parseOffs fuel (cs2.dropWhile isDigitC) with
      | some pr =>
        obtain ⟨os2, tl2⟩ := pr
        rw [hp] at h
        simp only [Option.some.injEq, Prod.mk.injEq] at h
        obtain ⟨rfl, rfl⟩ := h
        obtain ⟨heq, hvo⟩ := ih _ _ _ hp
        constructor
        · have hsplit : cs2 = cs2.takeWhile isDigitC ++ cs2.dropWhile isDigitC :=
            (takeWhile_append_dropWhile_digits cs2).symm
          conv_lhs => rw [hsplit, heq]
          simp
        · intro o ho
          rcases List.mem_cons.mp ho with ho | ho
          · subst ho; exact hdsdig
          · exact hvo o ho
      | none => rw [hp] at h; exact absurd h (by simp)
    · simp only [Option.some.injEq, Prod.mk.injEq] at h
      obtain ⟨rfl, rfl⟩ := h
      exact ⟨by simp, by simp⟩

theorem parseIdxTail_sound {cs ids : List Char} (h : parseIdxTail cs = some ids) :
    cs = '-' :: ids ∧ DigitRun ids := by
  unfold parseIdxTail at h
  split at h
  · rename_i rest
    by_cases hempty : rest.isEmpty
    · rw [if_pos hempty] at h; exact absurd h (by simp)
    rw [if_neg hempty] at h
    by_cases hall : allDigits rest
    · rw [if_pos hall] at h
      simp only [Option.some.injEq] at h
      subst h
      refine ⟨rfl, ?_, (allDigits_iff _).mp hall⟩
      intro hx; rw [hx] at hempty; simp at hempty
    · rw [if_neg hall] at h; exact absurd h (by simp)
  · exact absurd h (by simp)

/-- Soundness: any string the decoder accepts is in the regex language over
the source unit class `[smhdlun]`. -/
theorem parseIndexChars_sound {cs : List Char} {p : RawIndexParts}
    (h : parseIndexChars cs = some p) : IndexLang unitChars cs := by
  unfold parseIndexChars at h
  split at h
  · exact absurd h (by simp)
  · rename_i bs fr rest hh
    split at h
    · exact absurd h (by simp)
    · rename_i os rest2 ho
      split at h
      · exact absurd h (by simp)
      · rename_i ids hi
        obtain ⟨heq1, hvb, hvf, hvu⟩ := parseHead_sound _ cs bs fr rest hh
        obtain ⟨heq2, hvo⟩ := parseOffs_sound _ rest os rest2 ho
        obtain ⟨heq3, hvi⟩ := parseIdxTail_sound hi
        refine ⟨bs, fr.1, fr.2, os, ids, ?_, ?_, hvf, ?_, hvo, hvi⟩
        · rw [heq1, heq2, heq3]
          simp
        · intro b hb
          obtain ⟨hd, hu⟩ := hvb b hb
          exact ⟨hd, by simpa [isUnitC] using hu⟩
        · simpa [isUnitC] using hvu

theorem renderBlocks_eq (bs : List (List Char × Char)) (tail : List Char) :
    renderBlocks bs tail = (bs.map (fun b => b.1 ++ [b.2, '@'])).flatten ++ tail := by
  induction bs with
  | nil => simp [renderBlocks]
  | cons b bs2 ih =>
    simp only [renderBlocks, List.foldr_cons, List.map_cons, List.flatten_cons] at *
    rw [ih]
    simp

theorem renderOffs_eq (os : List (List Char)) (tail : List Char) :
    renderOffs os tail = (os.map (fun o => '+' :: o)).flatten ++ tail := by
  induction os with
  | nil => simp [renderOffs]
  | cons o os2 ih =>
    simp only [renderOffs, List.foldr_cons, List.map_cons, List.flatten_cons] at *
    rw [ih]
    simp

theorem parseHead_complete :
    ∀ (bs : List (List Char × Char)) (fds : List Char) (fu : Char)
      (tail : List Char) (fuel : ℕ),
      (∀ b ∈ bs, DigitRun b.1 ∧ isUnitC b.2 = true) →
      DigitRun fds → isUnitC fu = true →
      (∀ c, tail.head? = some c → isDigitC c = false ∧ c ≠ '@') →
      (renderBlocks bs (fds ++ fu :: tail)).length < fuel →
      parseHead fuel (renderBlocks bs (fds ++ fu :: tail)) = some (bs, (fds, fu), tail) := by
  intro bs
  induction bs with
  | nil =>
    intro fds fu tail fuel hbs hfds hfu htail hlen
    simp only [renderBlocks, List.foldr_nil] at hlen ⊢
    cases fuel with
    | zero => omega
    | succ f =>
      have hhead : ∀ c, (fu :: tail).head? = some c → isDigitC c = false := by
        intro c hc
        simp only [List.head?_cons, Option.some.injEq] at hc
        subst hc
        exact isDigitC_eq_false_of_isUnit hfu
      have hsplit := takeWhile_digits_of_head_not fds (fu :: tail)
        hfds.2 hhead
      unfold parseHead
      rw [hsplit.1, hsplit.2]
      rw [if_neg (by simp [hfds.1])]
      simp only [parseHeadAfter, if_pos hfu]
      cases tail with
      | nil => rfl
      | cons c rest3 =>
        have hc := htail c rfl
        simp only [parseHeadStep, if_neg hc.2]
  | cons b bs2 ih =>
    intro fds fu tail fuel hbs hfds hfu htail hlen
    have hb := hbs b (by simp)
    have hbs2 : ∀ x ∈ bs2, DigitRun x.1 ∧ isUnitC x.2 = true :=
      fun x hx => hbs x (by simp [hx])
    simp only [renderBlocks, List.foldr_cons] at hlen ⊢
    cases fuel with
    | zero => omega
    | succ f =>
      have hhead : ∀ c,
          (b.2 :: '@' :: (bs2.foldr (fun x acc => x.1 ++ x.2 :: '@' :: acc) (fds ++ fu :: tail))).head?
            = some c → isDigitC c = false := by
        intro c hc
        simp only [List.head?_cons, Option.some.injEq] at hc
        subst hc
        exact isDigitC_eq_false_of_isUnit hb.2
      have hsplit := takeWhile_digits_of_head_not b.1
        (b.2 :: '@' :: (bs2.foldr (fun x acc => x.1 ++ x.2 :: '@' :: acc) (fds ++ fu :: tail)))
        hb.1.2 hhead
      unfold parseHead
      rw [hsplit.1, hsplit.2]
      rw [if_neg (by simp [hb.1.1])]
      simp only [parseHeadAfter, if_pos hb.2]
      simp only [parseHeadStep, if_pos rfl]
      have hlen2 : (bs2.foldr (fun x acc => x.1 ++ x.2 :: '@' :: acc) (fds ++ fu :: tail)).length < f := by
        have hb1 : 1 ≤ b.1.length := by
          cases hx : b.1 with
          | nil => exact absurd hx hb.1.1
          | cons a l => simp
        simp only [List.length_append, List.length_cons] at hlen ⊢
        omega
      have := ih fds fu tail f hbs2 hfds hfu htail hlen2
      simp only [renderBlocks] at this
      rw [this]
      simp

theorem parseOffs_complete :
    ∀ (os : List (List Char)) (ids : List Char) (fuel : ℕ),
      (∀ o ∈ os, DigitRun o) →
      (renderOffs os ('-' :: ids)).length < fuel →
      parseOffs fuel (renderOffs os ('-' :: ids)) = some (os, '-' :: ids) := by
  intro os
  induction os with
  | nil =>
    intro ids fuel hos hlen
    simp only [renderOffs, List.foldr_nil] at hlen ⊢
    cases fuel with
    | zero => omega
    | succ f => rfl
  | cons o os2 ih =>
    intro ids fuel hos hlen
    have ho := hos o (by simp)
    have hos2 : ∀ x ∈ os2, DigitRun x := fun x hx => hos x (by simp [hx])
    simp only [renderOffs, List.foldr_cons] at hlen ⊢
    cases fuel with
    | zero => omega
    | succ f =>
      have hhead : ∀ c, (os2.foldr (fun x acc => '+' :: (x ++ acc)) ('-' :: ids)).head? = some c →
          isDigitC c = false := by
        intro c hc
        cases hx : os2 with
        | nil =>
          rw [hx] at hc
          simp only [List.foldr_nil, List.head?_cons, Option.some.injEq] at hc
          subst hc
          rfl
        | cons o2 os3 =>
          rw [hx] at hc
          simp only [List.foldr_cons, List.head?_cons, Option.some.injEq] at hc
          subst hc
          rfl
      have hsplit := takeWhile_digits_of_head_not o
        (os2.foldr (fun x acc => '+' :: (x ++ acc)) ('-' :: ids)) ho.2 hhead
      show (if ((o ++ os2.foldr (fun x acc => '+' :: (x ++ acc)) ('-' :: ids)).takeWhile isDigitC).isEmpty = true
            then none
            else match parseOffs f ((o ++ os2.foldr (fun x acc => '+' :: (x ++ acc)) ('-' :: ids)).dropWhile isDigitC) with
              | some (os, tail) =>
                some ((o ++ os2.foldr (fun x acc => '+' :: (x ++ acc)) ('-' :: ids)).takeWhile isDigitC :: os, tail)
              | none => none)
          = some (o :: os2, '-' :: ids)
      rw [hsplit.1, hsplit.2]
      rw [if_neg (by simp [ho.1])]
      have hlen2 : (os2.foldr (fun x acc => '+' :: (x ++ acc)) ('-' :: ids)).length < f := by
        have ho1 : 1 ≤ o.length := by
          cases hx : o with
          | nil => exact absurd hx ho.1
          | cons a l => simp
        simp only [List.length_cons, List.length_append] at hlen ⊢
        omega
      have := ih ids f hos2 hlen2
      simp only [renderOffs] at this
      rw [this]

theorem parseIdxTail_complete {ids : List Char} (hids : DigitRun ids) :
    parseIdxTail ('-' :: ids) = some ids := by
  show (if ids.isEmpty = true then none
        else if allDigits ids = true then some ids else none) = some ids
  rw [if_neg (by simp [hids.1])]
  rw [if_pos ((allDigits_iff ids).mpr hids.2)]

/-- Completeness: every string of the regex language over `[smhdlun]` is
accepted by the decoder, with the expected captures. -/
theorem parseIndexChars_complete
    {bs : List (List Char × Char)} {fds : List Char} {fu : Char}
    {os : List (List Char)} {ids : List Char}
    (hbs : ∀ b ∈ bs, DigitRun b.1 ∧ isUnitC b.2 = true)
    (hfds : DigitRun fds) (hfu : isUnitC fu = true)
    (hos : ∀ o ∈ os, DigitRun o) (hids : DigitRun ids) :
    parseIndexChars (renderBlocks bs (fds ++ fu :: renderOffs os ('-' :: ids)))
      = some ⟨bs, fds, fu, os, ids⟩ := by
  have htail1 : ∀ c, (renderOffs os ('-' :: ids)).head? = some c →
      isDigitC c = false ∧ c ≠ '@' := by
    intro c hc
    cases hx : os with
    | nil =>
      rw [hx] at hc
      simp only [renderOffs, List.foldr_nil, List.head?_cons, Option.some.injEq] at hc
      subst hc
      exact ⟨rfl, by decide⟩
    | cons o2 os3 =>
      rw [hx] at hc
      simp only [renderOffs, List.foldr_cons, List.head?_cons, Option.some.injEq] at hc
      subst hc
      exact ⟨rfl, by decide⟩
  unfold parseIndexChars
  rw [parseHead_complete bs fds fu (renderOffs os ('-' :: ids)) _ hbs hfds hfu htail1
    (by omega)]
  show (match parseOffs ((renderOffs os ('-' :: ids)).length + 1) (renderOffs os ('-' :: ids)) with
        | none => none
        | some (os2, rest2) =>
          match parseIdxTail rest2 with
          | none => none
          | some ids2 => some (RawIndexParts.mk bs fds fu os2 ids2))
      = some (RawIndexParts.mk bs fds fu os ids)
  rw [parseOffs_complete os ids _ hos (by omega)]
  show (match parseIdxTail ('-' :: ids) with
        | none => none
        | some ids2 => some (RawIndexParts.mk bs fds fu os ids2))
      = some (RawIndexParts.mk bs fds fu os ids)
  rw [parseIdxTail_complete hids]

theorem mem_getIndexList {w : WindowS} {t i : ℤ} :
    i ∈ getIndexList w t ↔ periodIndex0 w t ≤ i ∧ i ≤ periodIndexHi w t := by
  unfold getIndexList
  constructor
  · intro hmem
    obtain ⟨j, hj, hji⟩ := List.mem_map.mp hmem
    have hjr := List.mem_range.mp hj
    omega
  · intro hi
    exact List.mem_map.mpr
      ⟨(i - periodIndex0 w t).toNat, List.mem_range.mpr (by omega), by omega⟩

/-- `next` is minimal: no aligned instant strictly after `t` lies before it
(whole-ms frequency). -/
theorem periodNext_le_aligned {fz : ℤ} (hf : 1 ≤ fz) (o t x : ℤ)
    (hx : periodIsAligned (fz : ℚ) o x = true) (hgt : t < x) :
    periodNext (fz : ℚ) o t ≤ x := by
  have hfq : (0 : ℚ) < (fz : ℚ) := by exact_mod_cast hf
  obtain ⟨k, hk⟩ := (periodIsAligned_iff (ne_of_gt hfq) o x).mp hx
  have hxk : x = k * fz + o := by
    have : ((x : ℤ) : ℚ) = ((k * fz + o : ℤ) : ℚ) := by push_cast; linarith
    exact_mod_cast this
  have hceil_le : ⌈((t : ℚ) - o) / fz⌉ ≤ k := by
    rw [Int.ceil_le]
    rw [div_le_iff hfq]
    have : (t : ℚ) < k * fz + o := by exact_mod_cast hxk ▸ hgt
    linarith
  rw [periodNext_int hf o t]
  by_cases hc : ⌈((t : ℚ) - o) / fz⌉ * fz + o = t
  · rw [if_pos hc]
    -- t itself is aligned at index m := ceil; x > t aligned forces k ≥ m + 1
    have hm : k ≥ ⌈((t : ℚ) - o) / fz⌉ + 1 := by
      rcases lt_or_le ⌈((t : ℚ) - o) / fz⌉ k with h | h
      · omega
      · exfalso
        have hke : k = ⌈((t : ℚ) - o) / fz⌉ := le_antisymm h hceil_le
        rw [hke] at hxk
        omega
    calc ⌈((t : ℚ) - o) / fz⌉ * fz + o + fz
        = (⌈((t : ℚ) - o) / fz⌉ + 1) * fz + o := by ring
    _ ≤ k * fz + o := by
        have := mul_le_mul_of_nonneg_right hm (by omega : (0 : ℤ) ≤ fz)
        omega
    _ = x := hxk.symm
  · rw [if_neg hc]
    calc ⌈((t : ℚ) - o) / fz⌉ * fz + o + 0 = ⌈((t : ℚ) - o) / fz⌉ * fz + o := by ring
    _ ≤ k * fz + o := by
        have := mul_le_mul_of_nonneg_right hceil_le (by omega : (0 : ℤ) ≤ fz)
        omega
    _ = x := hxk.symm

theorem scanBeginOf_int {w : WindowS} {dz : ℤ} (hd : w.dur.val = (dz : ℚ)) (t : ℤ) :
    scanBeginOf w t = periodNext w.freq.val w.offset (t - dz) := by
  unfold scanBeginOf
  have : (t : ℚ) - w.dur.val = ((t - dz : ℤ) : ℚ) := by rw [hd]; push_cast; ring
  rw [this, jsTrunc_intCast]

theorem scanBeginOf_gt {w : WindowS} {fz dz : ℤ} (hf : w.freq.val = (fz : ℚ))
    (hfz : 1 ≤ fz) (hd : w.dur.val = (dz : ℚ)) (t : ℤ) :
    t - dz < scanBeginOf w t := by
  rw [scanBeginOf_int hd t, hf]
  exact (periodNext_bounds hfz w.offset (t - dz)).1

theorem periodIndexHi_le_iff {w : WindowS} {fz : ℤ} (hf : w.freq.val = (fz : ℚ))
    (hfz : 1 ≤ fz) {t i : ℤ} :
    i ≤ periodIndexHi w t ↔ i * fz ≤ t := by
  unfold periodIndexHi
  rw [hf, Int.le_floor]
  have hfq : (0 : ℚ) < (fz : ℚ) := by exact_mod_cast hfz
  rw [le_div_iff hfq]
  constructor
  · intro h; exact_mod_cast h
  · intro h; exact_mod_cast h

theorem periodIndex0_le_iff {w : WindowS} {fz : ℤ} (hf : w.freq.val = (fz : ℚ))
    (hfz : 1 ≤ fz) {t i : ℤ} :
    periodIndex0 w t ≤ i ↔ scanBeginOf w t ≤ i * fz := by
  unfold periodIndex0
  rw [hf, Int.ceil_le]
  have hfq : (0 : ℚ) < (fz : ℚ) := by exact_mod_cast hfz
  rw [div_le_iff hfq]
  constructor
  · intro h; exact_mod_cast h
  · intro h; exact_mod_cast h

/-- Every emitted period index `i` satisfies `t - d < i * f ≤ t`: its window
`[i·f, i·f + d)` contains `t` whatever the period offset. -/
theorem getIndexList_bounds {w : WindowS} {fz dz : ℤ} (hf : w.freq.val = (fz : ℚ))
    (hfz : 1 ≤ fz) (hd : w.dur.val = (dz : ℚ)) {t i : ℤ}
    (hmem : i ∈ getIndexList w t) : t - dz < i * fz ∧ i * fz ≤ t := by
  obtain ⟨h0, h1⟩ := mem_getIndexList.mp hmem
  constructor
  · calc t - dz < scanBeginOf w t := scanBeginOf_gt hf hfz hd t
    _ ≤ i * fz := (periodIndex0_le_iff hf hfz).mp h0
  · exact (periodIndexHi_le_iff hf hfz).mp h1

/-- With an unoffset period, the emitted indexes are exactly the windows
`[i·f, i·f + d)` that contain `t`. -/
theorem getIndexList_mem_iff {w : WindowS} {fz dz : ℤ} (hf : w.freq.val = (fz : ℚ))
    (hfz : 1 ≤ fz) (hd : w.dur.val = (dz : ℚ)) (ho : w.offset = 0) {t i : ℤ} :
    i ∈ getIndexList w t ↔ (t - dz < i * fz ∧ i * fz ≤ t) := by
  constructor
  · exact getIndexList_bounds hf hfz hd
  · rintro ⟨hlt, hle⟩
    rw [mem_getIndexList]
    refine ⟨?_, (periodIndexHi_le_iff hf hfz).mpr hle⟩
    rw [periodIndex0_le_iff hf hfz]
    rw [scanBeginOf_int hd t, hf]
    apply periodNext_le_aligned hfz w.offset (t - dz) (i * fz) _ hlt
    rw [ho]
    have hfq : ((fz : ℚ)) ≠ 0 := by
      have : (0 : ℚ) < (fz : ℚ) := by exact_mod_cast hfz
      exact ne_of_gt this
    rw [periodIsAligned_iff hfq]
    exact ⟨i, by push_cast; ring⟩

/-- The emitted index list is strictly increasing (so it has no duplicates). -/
theorem getIndexList_pairwise (w : WindowS) (t : ℤ) :
    (getIndexList w t).Pairwise (· < ·) :=
  (List.pairwise_lt_range _).map _ (fun a b hab => by omega)

/-- An unoffset tumbling window assigns a single index to every instant:
`floor(t / f)`. -/
theorem getIndexList_tumbling {w : WindowS} {fz : ℤ} (hf : w.freq.val = (fz : ℚ))
    (hfz : 1 ≤ fz) (hd : w.dur.val = (fz : ℚ)) (ho : w.offset = 0) (t : ℤ) :
    getIndexList w t = [⌊(t : ℚ) / (fz : ℚ)⌋] := by
  have hfq : (0 : ℚ) < (fz : ℚ)   := by exact_mod_cast hfz
  have hhi : periodIndexHi w t = ⌊(t : ℚ) / (fz : ℚ)⌋ := by
    unfold periodIndexHi
    rw [hf]
  have hmemhi : ⌊(t : ℚ) / (fz : ℚ)⌋ ∈ getIndexList w t := by
    rw [getIndexList_mem_iff hf hfz hd ho]
    have h1 : ⌊(t : ℚ) / (fz : ℚ)⌋ * fz ≤ t := by
      have hmul := mul_le_mul_of_nonneg_right
        (Int.floor_le ((t : ℚ) / (fz : ℚ))) (le_of_lt hfq)
      rw [div_mul_cancel₀ (t : ℚ) (ne_of_gt hfq)] at hmul
      exact_mod_cast hmul
    have h2 : t - fz < ⌊(t : ℚ) / (fz : ℚ)⌋ * fz := by
      have hmul := mul_lt_mul_of_pos_right
        (Int.lt_floor_add_one ((t : ℚ) / (fz : ℚ))) hfq
      rw [div_mul_cancel₀ (t : ℚ) (ne_of_gt hfq)] at hmul
      have h4 : (t : ℚ) < ⌊(t : ℚ) / (fz : ℚ)⌋ * fz + fz := by linarith [hmul]
      have h5 : t < ⌊(t : ℚ) / (fz : ℚ)⌋ * fz + fz := by exact_mod_cast h4
      omega
    exact ⟨h2, h1⟩
  have hp0 : periodIndex0 w t = ⌊(t : ℚ) / (fz : ℚ)⌋ := by
    have hle : periodIndex0 w t ≤ ⌊(t : ℚ) / (fz : ℚ)⌋ := (mem_getIndexList.mp hmemhi).1
    have hge : ⌊(t : ℚ) / (fz : ℚ)⌋ ≤ periodIndex0 w t := by
      by_contra hlt
      push_neg at hlt
      have hmem2 : periodIndex0 w t ∈ getIndexList w t := by
        rw [mem_getIndexList]
        have := (mem_getIndexList.mp hmemhi).1
        exact ⟨le_refl _, by rw [hhi]; omega⟩
      rw [getIndexList_mem_iff hf hfz hd ho] at hmem2
      obtain ⟨ha, hb⟩ := hmem2
      have hmemhi2 := (getIndexList_mem_iff hf hfz hd ho).mp hmemhi
      obtain ⟨hc, hdd⟩ := hmemhi2
      -- periodIndex0 < floor(t/f), both windows of width f contain t: impossible
      have hstep : periodIndex0 w t * fz + fz ≤ ⌊(t : ℚ) / (fz : ℚ)⌋ * fz := by
        have h6 : periodIndex0 w t + 1 ≤ ⌊(t : ℚ) / (fz : ℚ)⌋ := by omega
        have h7 := mul_le_mul_of_nonneg_right h6 (by omega : (0 : ℤ) ≤ fz)
        have h8 : (periodIndex0 w t + 1) * fz = periodIndex0 w t * fz + fz := by ring
        omega
      omega
    omega
  unfold getIndexList
  rw [hp0, hhi]
  have hone : (⌊(t : ℚ) / (fz : ℚ)⌋ + 1 - ⌊(t : ℚ) / (fz : ℚ)⌋).toNat = 1 := by omega
  rw [hone]
  simp [List.range_succ]

/-! ## Decoding the keys a Window produces -/

theorem splitOnC_not_mem {c : Char} {ys : List Char} (h : c ∉ ys) :
    splitOnC c ys = [ys] := by
  induction ys with
  | nil => rfl
  | cons y ys ih =>
    have hy : y ≠ c := fun he => h (he ▸ List.mem_cons_self y ys)
    have hys : c ∉ ys := fun hm => h (List.mem_cons_of_mem y hm)
    simp only [splitOnC, ih hys]
    rw [if_neg hy]

theorem splitOnC_single {c : Char} {xs ys : List Char} (hx : c ∉ xs) (hy : c ∉ ys) :
    splitOnC c (xs ++ c :: ys) = [xs, ys] := by
  induction xs with
  | nil =>
    rw [List.nil_append]
    show (match splitOnC c ys with
          | [] => [[c]]
          | g :: gs => if c = c then [] :: g :: gs else (c :: g) :: gs) = [[], ys]
    rw [splitOnC_not_mem hy]
    simp
  | cons x xs ih =>
    have hxc : x ≠ c := fun he => hx (he ▸ List.mem_cons_self x xs)
    have hxs : c ∉ xs := fun hm => hx (List.mem_cons_of_mem x hm)
    rw [List.cons_append]
    show (match splitOnC c (xs ++ c :: ys) with
          | [] => [[x]]
          | g :: gs => if x = c then [] :: g :: gs else (x :: g) :: gs) = [x :: xs, ys]
    rw [ih hxs]
    simp [hxc]

theorem dash_not_mem_of_allDigits {cs : List Char} (h : allDigits cs = true) :
    '-' ∉ cs := by
  intro hm
  have := (allDigits_iff cs).mp h '-' hm
  simp [isDigitC] at this

theorem dash_not_mem_natToChars (n : ℕ) : '-' ∉ natToChars n :=
  dash_not_mem_of_allDigits (allDigits_natToChars n)

theorem DUnit.char_ne_dash (du : DUnit) : du.char ≠ '-' := by
  cases du <;> decide

theorem dash_not_mem_durChars (dd : DurS) : '-' ∉ dd.chars := by
  unfold DurS.chars
  intro hm
  rcases List.mem_append.mp hm with hm | hm
  · exact dash_not_mem_natToChars dd.num hm
  · simp at hm
    exact dd.unit.char_ne_dash hm.symm

theorem dash_not_mem_periodChars {w : WindowS} (ho : 0 ≤ w.offset) :
    '-' ∉ periodChars w := by
  unfold periodChars
  intro hm
  rcases List.mem_append.mp hm with hm | hm
  · exact dash_not_mem_durChars w.freq hm
  · by_cases h0 : w.offset = 0
    · rw [if_pos h0] at hm; simp at hm
    · rw [if_neg h0] at hm
      rcases List.mem_cons.mp hm with hm | hm
      · simp at hm
      · unfold intToChars at hm
        rw [if_neg (by omega)] at hm
        exact dash_not_mem_natToChars _ hm

theorem dash_not_mem_windowChars {w : WindowS} (ho : 0 ≤ w.offset) :
    '-' ∉ windowChars w := by
  unfold windowChars
  intro hm
  by_cases hv : w.freq.val = w.dur.val
  · rw [if_pos hv] at hm; exact dash_not_mem_periodChars ho hm
  · rw [if_neg hv] at hm
    rcases List.mem_append.mp hm with hm | hm
    · exact dash_not_mem_durChars w.dur hm
    · rcases List.mem_cons.mp hm with hm | hm
      · simp at hm
      · exact dash_not_mem_periodChars ho hm

theorem isUnitC_char {du : DUnit} (h : du ≠ DUnit.w) : isUnitC du.char = true := by
  cases du <;> first | rfl | exact absurd rfl h

theorem digitRun_natToChars (n : ℕ) : DigitRun (natToChars n) :=
  ⟨natToChars_ne_nil n, (allDigits_iff _).mp (allDigits_natToChars n)⟩

/-- The parse of a key `"<window prefix>-<i>"`, `i ≥ 0`, produced by a window
whose duration/frequency units are not weeks and whose offset is
nonnegative. -/
theorem parseIndexChars_key {w : WindowS} (hdu : w.dur.unit ≠ DUnit.w)
    (hfu : w.freq.unit ≠ DUnit.w) (ho : 0 ≤ w.offset) {i : ℤ} (hi : 0 ≤ i) :
    parseIndexChars (windowChars w ++ '-' :: intToChars i) =
      some ⟨(if w.freq.val = w.dur.val then [] else [(natToChars w.dur.num, w.dur.unit.char)]),
            natToChars w.freq.num, w.freq.unit.char,
            (if w.offset = 0 then [] else [natToChars w.offset.toNat]),
            natToChars i.toNat⟩ := by
  have hids : intToChars i = natToChars i.toNat := by
    unfold intToChars
    rw [if_neg (by omega)]
  have hoffs : w.offset ≠ 0 → '+' :: intToChars w.offset = '+' :: natToChars w.offset.toNat := by
    intro h0
    unfold intToChars
    rw [if_neg (by omega)]
  have hkey : windowChars w ++ '-' :: intToChars i =
      renderBlocks (if w.freq.val = w.dur.val then [] else [(natToChars w.dur.num, w.dur.unit.char)])
        (natToChars w.freq.num ++ w.freq.unit.char ::
          renderOffs (if w.offset = 0 then [] else [natToChars w.offset.toNat])
            ('-' :: natToChars i.toNat)) := by
    rw [hids]
    unfold windowChars periodChars renderBlocks renderOffs DurS.chars
    by_cases hv : w.freq.val = w.dur.val
    · rw [if_pos hv, if_pos hv]
      by_cases h0 : w.offset = 0
      · rw [if_pos h0, if_pos h0]
        simp
      · rw [if_neg h0, if_neg h0, hoffs h0]
        simp
    · rw [if_neg hv, if_neg hv]
      by_cases h0 : w.offset = 0
      · rw [if_pos h0, if_pos h0]
        simp
      · rw [if_neg h0, if_neg h0, hoffs h0]
        simp
  rw [hkey]
  apply parseIndexChars_complete
  · intro b hb
    by_cases hv : w.freq.val = w.dur.val
    · rw [if_pos hv] at hb; simp at hb
    · rw [if_neg hv] at hb
      simp only [List.mem_singleton] at hb
      subst hb
      exact ⟨digitRun_natToChars _, isUnitC_char hdu⟩
  · exact digitRun_natToChars _
  · exact isUnitC_char hfu
  · intro o hob
    by_cases h0 : w.offset = 0
    · rw [if_pos h0] at hob; simp at hob
    · rw [if_neg h0] at hob
      simp only [List.mem_singleton] at hob
      subst hob
      exact digitRun_natToChars _
  · exact digitRun_natToChars _

/-- `Util.timeRangeFromIndexString` on such a key: the closed range
`[i * freq, i * freq + dur]` in ms. The period offset present in the key is
parsed but ignored by the source. -/
theorem timeRangeFromIndexChars_key {w : WindowS} (hdu : w.dur.unit ≠ DUnit.w)
    (hfu : w.freq.unit ≠ DUnit.w) (ho : 0 ≤ w.offset) {i : ℤ} (hi : 0 ≤ i) :
    timeRangeFromIndexChars (windowChars w ++ '-' :: intToChars i) =
      some ((i : ℚ) * w.freq.val, (i : ℚ) * w.freq.val + w.dur.val) := by
  have hids : intToChars i = natToChars i.toNat := by
    unfold intToChars
    rw [if_neg (by omega)]
  unfold timeRangeFromIndexChars
  have hsplit : splitOnC '-' (windowChars w ++ '-' :: intToChars i) =
      [windowChars w, intToChars i] := by
    apply splitOnC_single (dash_not_mem_windowChars ho)
    rw [hids]
    exact dash_not_mem_natToChars _
  rw [if_pos (by rw [hsplit]; rfl)]
  rw [parseIndexChars_key hdu hfu ho hi]
  have hfreq : decodeFreqVal
      ⟨(if w.freq.val = w.dur.val then [] else [(natToChars w.dur.num, w.dur.unit.char)]),
        natToChars w.freq.num, w.freq.unit.char,
        (if w.offset = 0 then [] else [natToChars w.offset.toNat]),
        natToChars i.toNat⟩ = w.freq.val := by
    unfold decodeFreqVal
    simp only [parseValC_natToChars, shortUnitMs_char]
    rfl
  have hdur : decodeDurVal
      ⟨(if w.freq.val = w.dur.val then [] else [(natToChars w.dur.num, w.dur.unit.char)]),
        natToChars w.freq.num, w.freq.unit.char,
        (if w.offset = 0 then [] else [natToChars w.offset.toNat]),
        natToChars i.toNat⟩ = w.dur.val := by
    unfold decodeDurVal
    by_cases hv : w.freq.val = w.dur.val
    · rw [if_pos hv]
      simp only [List.getLast?_nil]
      rw [← hv]
      unfold decodeFreqVal
      simp only [parseValC_natToChars, shortUnitMs_char]
      rfl
    · rw [if_neg hv]
      simp only [List.getLast?_singleton]
      simp only [parseValC_natToChars, shortUnitMs_char]
      rfl
  have hidx : decodeIdx
      ⟨(if w.freq.val = w.dur.val then [] else [(natToChars w.dur.num, w.dur.unit.char)]),
        natToChars w.freq.num, w.freq.unit.char,
        (if w.offset = 0 then [] else [natToChars w.offset.toNat]),
        natToChars i.toNat⟩ = i.toNat := by
    unfold decodeIdx
    exact parseValC_natToChars _
  have hcast : ((i.toNat : ℕ) : ℚ) = (i : ℚ) := by
    have h2 : ((i.toNat : ℤ) : ℚ) = (i : ℚ) := by
      congr 1
      omega
    exact_mod_cast h2
  simp only [hfreq, hdur, hidx, hcast]

/-! ### Integer-form evaluation lemmas for the tumbling WindowedCollection -/

theorem floor_int_div {a b : ℤ} (hb : 1 ≤ b) : ⌊(a : ℚ) / (b : ℚ)⌋ = a / b := by
  have h1 : b = ((b.toNat : ℕ) : ℤ) := by omega
  rw [h1]
  push_cast
  exact Rat.floor_intCast_div_natCast a b.toNat

theorem windowIdx_int {w : WindowS} {fz : ℤ} (hf : w.freq.val = (fz : ℚ))
    (hfz : 1 ≤ fz) (e : Ev) : windowIdx w e = e.ts / fz := by
  unfold windowIdx
  rw [hf]
  exact floor_int_div hfz

theorem getIndexKeys_tumbling {w : WindowS} {fz : ℤ} (hf : w.freq.val = (fz : ℚ))
    (hfz : 1 ≤ fz) (hd : w.dur.val = (fz : ℚ)) (ho : w.offset = 0) (t : ℤ) :
    getIndexKeys w t = [keyOfIdx w (t / fz)] := by
  unfold getIndexKeys
  rw [getIndexList_tumbling hf hfz hd ho, floor_int_div hfz]
  rfl

theorem bucketKept_key {w : WindowS} {fz : ℤ} (hf : w.freq.val = (fz : ℚ))
    (hd : w.dur.val = (fz : ℚ)) (hdu : w.dur.unit ≠ DUnit.w)
    (hfu : w.freq.unit ≠ DUnit.w) (ho : 0 ≤ w.offset) {i : ℤ} (hi : 0 ≤ i)
    (t : ℤ) :
    bucketKept t (keyOfIdx w i) = decide (t < (i + 1) * fz) := by
  unfold bucketKept keyOfIdx
  rw [timeRangeFromIndexChars_key hdu hfu ho hi]
  show decide ((t : ℚ) < (i : ℚ) * w.freq.val + w.dur.val) = decide (t < (i + 1) * fz)
  rw [decide_eq_decide, hf, hd]
  constructor
  · intro h
    have h2 : (t : ℚ) < (((i + 1) * fz : ℤ) : ℚ) := by push_cast; linarith
    exact_mod_cast h2
  · intro h
    have h2 : ((t : ℤ) : ℚ) < (((i + 1) * fz : ℤ) : ℚ) := by exact_mod_cast h
    push_cast at h2
    linarith

theorem intToChars_inj {i j : ℤ} (hi : 0 ≤ i) (hj : 0 ≤ j)
    (h : intToChars i = intToChars j) : i = j := by
  unfold intToChars at h
  rw [if_neg (by omega), if_neg (by omega)] at h
  have h2 := congrArg parseValC h
  rw [parseValC_natToChars, parseValC_natToChars] at h2
  omega

theorem keyOfIdx_inj {w : WindowS} {i j : ℤ} (hi : 0 ≤ i) (hj : 0 ≤ j)
    (h : keyOfIdx w i = keyOfIdx w j) : i = j := by
  unfold keyOfIdx at h
  have h2 := List.append_cancel_left h
  exact intToChars_inj hi hj (List.tail_eq_of_cons_eq h2)

theorem assocGet_nil (k : List Char) : assocGet k [] = none := rfl

theorem assocGet_cons (k k2 : List Char) (v : List Ev)
    (rest : List (List Char × List Ev)) :
    assocGet k ((k2, v) :: rest) = if k2 = k then some v else assocGet k rest := rfl

theorem assocSet_nil (k : List Char) (v : List Ev) : assocSet k v [] = [(k, v)] := rfl

theorem assocSet_cons (k : List Char) (v : List Ev) (k2 : List Char) (v2 : List Ev)
    (rest : List (List Char × List Ev)) :
    assocSet k v ((k2, v2) :: rest) =
      if k2 = k then (k, v) :: rest else (k2, v2) :: assocSet k v rest := rfl

/-- One `addEvent` step under the `onDiscardedWindow` trigger, on a state
holding the single bucket of window `i0`, for an event of window `i ≥ i0`:
the same window grows the bucket and emits nothing; a later window opens a
fresh bucket and emits (discards) the old one. -/
theorem wcAddEvent_step {w : WindowS} {fz : ℤ} (hf : w.freq.val = (fz : ℚ))
    (hfz : 1 ≤ fz) (hd : w.dur.val = (fz : ℚ)) (ho : w.offset = 0)
    (hdu : w.dur.unit ≠ DUnit.w) (hfu : w.freq.unit ≠ DUnit.w)
    {i0 : ℤ} (hi0 : 0 ≤ i0) (b : List Ev) (e : Ev)
    (hge : i0 ≤ e.ts / fz) :
    wcAddEvent w Trigger.onDiscardedWindow [(keyOfIdx w i0, b)] e =
      if e.ts / fz = i0 then ([(keyOfIdx w i0, insertChron e b)], [])
      else ([(keyOfIdx w (e.ts / fz), [e])], [(keyOfIdx w i0, b)]) := by
  have hkeys := getIndexKeys_tumbling hf hfz hd ho e.ts
  have hi : 0 ≤ e.ts / fz := le_trans hi0 hge
  have hdm := Int.ediv_add_emod e.ts fz
  have hm0 := Int.emod_nonneg e.ts (by omega : fz ≠ 0)
  have hmlt := Int.emod_lt_of_pos e.ts (by omega : 0 < fz)
  have hnewlt : e.ts < (e.ts / fz + 1) * fz := by nlinarith [hdm, hmlt]
  unfold wcAddEvent
  rw [hkeys]
  by_cases hcase : e.ts / fz = i0
  · rw [if_pos hcase, hcase]
    have hget : assocGet (keyOfIdx w i0) [(keyOfIdx w i0, b)] = some b := by
      rw [assocGet_cons, if_pos rfl]
    have hset : assocSet (keyOfIdx w i0) (insertChron e b) [(keyOfIdx w i0, b)] =
        [(keyOfIdx w i0, insertChron e b)] := by
      rw [assocSet_cons, if_pos rfl]
    have hkept : bucketKept e.ts (keyOfIdx w i0) = true := by
      rw [bucketKept_key hf hd hdu hfu (by omega) hi0]
      rw [← hcase]
      simp [hnewlt]
    simp only [List.foldl, wcIngest, hget, Option.getD_some, hset]
    simp [List.filter, hkept]
  · rw [if_neg hcase]
    have hlt : i0 < e.ts / fz := lt_of_le_of_ne hge (fun h => hcase h.symm)
    have hne : keyOfIdx w i0 ≠ keyOfIdx w (e.ts / fz) := fun h =>
      hcase ((keyOfIdx_inj hi0 hi h).symm)
    have hget : assocGet (keyOfIdx w (e.ts / fz)) [(keyOfIdx w i0, b)] = none := by
      rw [assocGet_cons, if_neg hne, assocGet_nil]
    have hset : assocSet (keyOfIdx w (e.ts / fz)) (insertChron e []) [(keyOfIdx w i0, b)] =
        [(keyOfIdx w i0, b), (keyOfIdx w (e.ts / fz), [e])] := by
      rw [assocSet_cons, if_neg hne, assocSet_nil]
      rfl
    have hold : bucketKept e.ts (keyOfIdx w i0) = false := by
      rw [bucketKept_key hf hd hdu hfu (by omega) hi0]
      have h2 : ¬ (e.ts < (i0 + 1) * fz) := by
        have h4 : (i0 + 1) * fz ≤ (e.ts / fz) * fz :=
          mul_le_mul_of_nonneg_right (by omega : i0 + 1 ≤ e.ts / fz) (by omega)
        nlinarith [h4, hdm, hm0]
      simp [h2]
    have hnew : bucketKept e.ts (keyOfIdx w (e.ts / fz)) = true := by
      rw [bucketKept_key hf hd hdu hfu (by omega) hi]
      simp [hnewlt]
    simp only [List.foldl, wcIngest, hget, Option.getD_none, hset]
    simp [List.filter, hold, hnew]

theorem insertChron_of_le {e : Ev} {b : List Ev} (h : ∀ x ∈ b, x.ts ≤ e.ts) :
    insertChron e b = b ++ [e] := by
  induction b with
  | nil => rfl
  | cons x xs ih =>
    unfold insertChron
    rw [if_neg (by have := h x (List.mem_cons_self x xs); omega)]
    rw [ih (fun y hy => h y (List.mem_cons_of_mem x hy))]
    rfl

/-- The very first `addEvent` on an empty `WindowedCollection` just opens the
bucket of the event window and emits nothing. -/
theorem wcAddEvent_first {w : WindowS} {fz : ℤ} (hf : w.freq.val = (fz : ℚ))
    (hfz : 1 ≤ fz) (hd : w.dur.val = (fz : ℚ)) (ho : w.offset = 0)
    (hdu : w.dur.unit ≠ DUnit.w) (hfu : w.freq.unit ≠ DUnit.w)
    (e : Ev) (hts : 0 ≤ e.ts) :
    wcAddEvent w Trigger.onDiscardedWindow [] e =
      ([(keyOfIdx w (e.ts / fz), [e])], []) := by
  have hi : 0 ≤ e.ts / fz := Int.ediv_nonneg hts (by omega)
  have hdm := Int.ediv_add_emod e.ts fz
  have hmlt := Int.emod_lt_of_pos e.ts (by omega : 0 < fz)
  have hnewlt : e.ts < (e.ts / fz + 1) * fz := by nlinarith [hdm, hmlt]
  have hnew : bucketKept e.ts (keyOfIdx w (e.ts / fz)) = true := by
    rw [bucketKept_key hf hd hdu hfu (by omega) hi]
    simp [hnewlt]
  unfold wcAddEvent
  rw [getIndexKeys_tumbling hf hfz hd ho]
  simp only [List.foldl, wcIngest, assocGet_nil, Option.getD_none, assocSet_nil]
  simp [List.filter, hnew, insertChron]

/-- Running the tumbling `onDiscardedWindow` loop from a state holding the
single open bucket of window `i0`: for chronological events at or after
window `i0`, the emission log grows by one bucket per window boundary
crossed, each emitted bucket holding exactly the events of its (now closed)
window; the bucket of the last window seen remains open and unemitted. -/
theorem wcFold_tumbling {w : WindowS} {fz : ℤ} (hf : w.freq.val = (fz : ℚ))
    (hfz : 1 ≤ fz) (hd : w.dur.val = (fz : ℚ)) (ho : w.offset = 0)
    (hdu : w.dur.unit ≠ DUnit.w) (hfu : w.freq.unit ≠ DUnit.w)
    (es : List Ev) :
    ∀ (i0 : ℤ) (b : List Ev) (em0 : List (List Char × List Ev)),
      0 ≤ i0 →
      (∀ e ∈ es, i0 ≤ e.ts / fz) →
      List.Pairwise (fun a b => a.ts ≤ b.ts) es →
      (∀ x ∈ b, ∀ e ∈ es, x.ts ≤ e.ts) →
      (es.foldl (wcStep w Trigger.onDiscardedWindow) ([(keyOfIdx w i0, b)], em0)).2 =
        em0 ++ ((i0 :: es.map (fun e => e.ts / fz)).dedup).dropLast.map
          (fun i => (keyOfIdx w i,
            (if i = i0 then b else []) ++ es.filter (fun e => e.ts / fz = i))) := by
  induction es with
  | nil =>
    intro i0 b em0 hi0 hge hp hb
    simp
  | cons e rest ih =>
    intro i0 b em0 hi0 hge hp hb
    have hgeE : i0 ≤ e.ts / fz := hge e (List.mem_cons_self e rest)
    have hpc := List.pairwise_cons.mp hp
    rw [List.foldl_cons]
    have hstep := wcAddEvent_step hf hfz hd ho hdu hfu hi0 b e hgeE
    by_cases hcase : e.ts / fz = i0
    · rw [if_pos hcase] at hstep
      have hins : insertChron e b = b ++ [e] :=
        insertChron_of_le (fun x hx => hb x hx e (List.mem_cons_self e rest))
      have hwcs : wcStep w Trigger.onDiscardedWindow ([(keyOfIdx w i0, b)], em0) e =
          ([(keyOfIdx w i0, b ++ [e])], em0) := by
        unfold wcStep
        rw [hstep, hins]
        simp
      rw [hwcs]
      rw [ih i0 (b ++ [e]) em0 hi0
        (fun e' he' => hge e' (List.mem_cons_of_mem e he')) hpc.2 ?hbnd]
      case hbnd =>
        intro x hx e' he'
        rcases List.mem_append.mp hx with hx | hx
        · exact hb x hx e' (List.mem_cons_of_mem e he')
        · simp only [List.mem_singleton] at hx
          subst hx
          exact hpc.1 e' he'
      congr 1
      simp only [List.map_cons]
      rw [hcase, List.dedup_cons_of_mem (List.mem_cons_self i0 _)]
      apply List.map_congr_left
      intro j hj
      by_cases hji : j = i0
      · subst hji
        simp [List.filter_cons, hcase]
      · have hij : i0 ≠ j := Ne.symm hji
        simp [List.filter_cons, hcase, hji, hij]
    · rw [if_neg hcase] at hstep
      have hlt : i0 < e.ts / fz := lt_of_le_of_ne hgeE (fun h => hcase h.symm)
      have hwcs : wcStep w Trigger.onDiscardedWindow ([(keyOfIdx w i0, b)], em0) e =
          ([(keyOfIdx w (e.ts / fz), [e])], em0 ++ [(keyOfIdx w i0, b)]) := by
        unfold wcStep
        rw [hstep]
      rw [hwcs]
      have hmono : ∀ e' ∈ rest, e.ts / fz ≤ e'.ts / fz := fun e' he' =>
        Int.ediv_le_ediv (by omega) (hpc.1 e' he')
      rw [ih (e.ts / fz) [e] (em0 ++ [(keyOfIdx w i0, b)]) (by omega) hmono hpc.2 ?hb2]
      case hb2 =>
        intro x hx e' he'
        simp only [List.mem_singleton] at hx
        subst hx
        exact hpc.1 e' he'
      simp only [List.map_cons]
      have hnotmem : i0 ∉ (e.ts / fz :: rest.map (fun e => e.ts / fz)) := by
        intro hm
        rcases List.mem_cons.mp hm with h | h
        · omega
        · obtain ⟨e', he', heq⟩ := List.mem_map.mp h
          have := hmono e' he'
          omega
      rw [List.dedup_cons_of_not_mem hnotmem]
      have hLne : (e.ts / fz :: rest.map (fun e => e.ts / fz)).dedup ≠ [] := by
        intro h
        have h2 : e.ts / fz ∈ (e.ts / fz :: rest.map (fun e => e.ts / fz)).dedup :=
          List.mem_dedup.mpr (List.mem_cons_self _ _)
        rw [h] at h2
        exact List.not_mem_nil _ h2
      obtain ⟨j0, L2, hL⟩ := List.exists_cons_of_ne_nil hLne
      rw [hL, List.dropLast_cons₂]
      simp only [List.map_cons]
      have hmemL : ∀ j ∈ j0 :: L2, e.ts / fz ≤ j := by
        rw [← hL]
        intro j hj
        rcases List.mem_cons.mp (List.dedup_subset _ hj) with h | h
        · omega
        · obtain ⟨e', he', heq⟩ := List.mem_map.mp h
          have := hmono e' he'
          omega
      have hfe : (e :: rest).filter (fun e2 => decide (e2.ts / fz = i0)) = [] := by
        rw [List.filter_eq_nil_iff]
        intro a ha
        rcases List.mem_cons.mp ha with h | h
        · subst h
          simp only [decide_eq_true_eq]
          omega
        · have := hmono a h
          simp only [decide_eq_true_eq]
          omega
      have htail : (j0 :: L2).dropLast.map (fun i => (keyOfIdx w i,
            (if i = i0 then b else []) ++
              (e :: rest).filter (fun e2 => e2.ts / fz = i))) =
          (j0 :: L2).dropLast.map (fun i => (keyOfIdx w i,
            (if i = e.ts / fz then [e] else []) ++
              rest.filter (fun e2 => e2.ts / fz = i))) := by
        apply List.map_congr_left
        intro j hj
        have hjmem : j ∈ j0 :: L2 := (List.dropLast_sublist _).subset hj
        have hjge : e.ts / fz ≤ j := hmemL j hjmem
        have hjne : j ≠ i0 := by omega
        by_cases hje : j = e.ts / fz
        · subst hje
          simp [List.filter_cons, hjne]
        · have hejne : ¬ (e.ts / fz = j) := fun h => hje h.symm
          simp [List.filter_cons, hjne, hje, hejne]
      rw [htail]
      simp [hfe]

/-- Full characterization of the tumbling `onDiscardedWindow` run over
chronological, nonnegative-timestamp events: the emitted buckets are, in
order, one per distinct window index except the last, each holding exactly
the events of its window. -/
theorem wcRun_tumbling {w : WindowS} {fz : ℤ} (hf : w.freq.val = (fz : ℚ))
    (hfz : 1 ≤ fz) (hd : w.dur.val = (fz : ℚ)) (ho : w.offset = 0)
    (hdu : w.dur.unit ≠ DUnit.w) (hfu : w.freq.unit ≠ DUnit.w)
    (es : List Ev) (hchron : List.Chain' (fun a b => a.ts ≤ b.ts) es)
    (hnn : ∀ e ∈ es, 0 ≤ e.ts) :
    (wcRun w Trigger.onDiscardedWindow es).2 =
      ((es.map (fun e => e.ts / fz)).dedup).dropLast.map
        (fun i => (keyOfIdx w i, es.filter (fun e => e.ts / fz = i))) := by
  haveI : IsTrans Ev (fun a b => a.ts ≤ b.ts) := ⟨fun a b c hab hbc => le_trans hab hbc⟩
  have hpw : List.Pairwise (fun a b => a.ts ≤ b.ts) es :=
    List.chain'_iff_pairwise.mp hchron
  cases es with
  | nil => rfl
  | cons e rest =>
    have hts : 0 ≤ e.ts := hnn e (List.mem_cons_self e rest)
    have hpc := List.pairwise_cons.mp hpw
    have hi : 0 ≤ e.ts / fz := Int.ediv_nonneg hts (by omega)
    unfold wcRun
    rw [List.foldl_cons]
    have hfirst : wcStep w Trigger.onDiscardedWindow ([], []) e =
        ([(keyOfIdx w (e.ts / fz), [e])], []) := by
      unfold wcStep
      rw [wcAddEvent_first hf hfz hd ho hdu hfu e hts]
      rfl
    rw [hfirst]
    have hmono : ∀ e' ∈ rest, e.ts / fz ≤ e'.ts / fz := fun e' he' =>
      Int.ediv_le_ediv (by omega) (hpc.1 e' he')
    rw [wcFold_tumbling hf hfz hd ho hdu hfu rest (e.ts / fz) [e] [] hi hmono hpc.2 ?hb]
    case hb =>
      intro x hx e' he'
      simp only [List.mem_singleton] at hx
      subst hx
      exact hpc.1 e' he'
    simp only [List.nil_append, List.map_cons]
    apply List.map_congr_left
    intro j hj
    by_cases hje : j = e.ts / fz
    · subst hje
      simp [List.filter_cons]
    · have hejne : ¬ (e.ts / fz = j) := fun h => hje h.symm
      simp [List.filter_cons, hje, hejne]

theorem DUnit.ne_w_of_isCoreWhole {du : DUnit} (h : du.isCoreWhole = true) :
    du ≠ DUnit.w := by
  intro he
  subst he
  exact absurd h (by decide)

/-- C1 (corrected): for a `WindowedCollection` over a tumbling window
(`window(duration(dd))`, whole-millisecond unit, window length `fz` ms) with
trigger `onDiscardedWindow`, feeding events in timestamp order with
nonnegative timestamps emits, in order, one bucket per distinct window
EXCEPT THE LAST — `M - 1` buckets for `M` distinct windows, not the claimed
`M` — each emitted exactly once and holding exactly the events of its
window. The bucket of the last window is still open when the input ends and
is never emitted by `addEvent` alone. -/
theorem pondC1 {dd : DurS} {fz : ℤ} (hw : dd.unit.isCoreWhole = true)
    (hval : dd.val = (fz : ℚ)) (hfz : 1 ≤ fz)
    (es : List Ev) (hchron : List.Chain' (fun a b => a.ts ≤ b.ts) es)
    (hnn : ∀ e ∈ es, 0 ≤ e.ts) :
    (wcRun (windowOf dd) Trigger.onDiscardedWindow es).2 =
      ((es.map (fun e => e.ts / fz)).dedup).dropLast.map
        (fun i => (keyOfIdx (windowOf dd) i,
          es.filter (fun e => e.ts / fz = i))) ∧
    (wcRun (windowOf dd) Trigger.onDiscardedWindow es).2.length =
      ((es.map (fun e => e.ts / fz)).dedup).length - 1 ∧
    ((wcRun (windowOf dd) Trigger.onDiscardedWindow es).2.map Prod.fst).Nodup := by
  have hne : dd.unit ≠ DUnit.w := DUnit.ne_w_of_isCoreWhole hw
  have hval2 : (windowOf dd).freq.val = (fz : ℚ) := hval
  have hval3 : (windowOf dd).dur.val = (fz : ℚ) := hval
  have hchar := wcRun_tumbling hval2 hfz hval3 rfl
    hne hne es hchron hnn
  refine ⟨hchar, ?_, ?_⟩
  · rw [hchar, List.length_map, List.length_dropLast]
  · rw [hchar, List.map_map]
    have hcomp : (Prod.fst ∘ fun i =>
        (keyOfIdx (windowOf dd) i, es.filter (fun e => e.ts / fz = i))) =
        fun i => keyOfIdx (windowOf dd) i := rfl
    rw [hcomp]
    refine List.Nodup.map_on ?_ ((List.nodup_dedup _).sublist (List.dropLast_sublist _))
    intro x hx y hy hxy
    have hx3 := List.dedup_subset _ ((List.dropLast_sublist _).subset hx)
    have hy3 := List.dedup_subset _ ((List.dropLast_sublist _).subset hy)
    obtain ⟨ex, hex, hexi⟩ := List.mem_map.mp hx3
    obtain ⟨ey, hey, heyi⟩ := List.mem_map.mp hy3
    have hx0 : 0 ≤ x := by
      subst hexi
      exact Int.ediv_nonneg (hnn ex hex) (by omega)
    have hy0 : 0 ≤ y := by
      subst heyi
      exact Int.ediv_nonneg (hnn ey hey) (by omega)
    exact keyOfIdx_inj hx0 hy0 hxy

/-- C1 counterexample to the claimed count: two events in timestamp order
spanning `M = 2` distinct windows of the tumbling 1-second window produce
exactly ONE emitted bucket under `onDiscardedWindow`, not two — the second
window's bucket is never discarded, hence never emitted. -/
theorem pondC1_counterexample :
    ((([⟨0, 0⟩, ⟨1000, 1⟩] : List Ev).map
        (windowIdx (windowOf ⟨1, DUnit.s⟩))).dedup).length = 2 ∧
    (wcRun (windowOf ⟨1, DUnit.s⟩) Trigger.onDiscardedWindow
      [⟨0, 0⟩, ⟨1000, 1⟩]).2.length = 1 := by
  have hf : (windowOf ⟨1, DUnit.s⟩).freq.val = ((1000 : ℤ) : ℚ) := by
    norm_num [windowOf, DurS.val, DUnit.ms]
  have hwidx : windowIdx (windowOf ⟨1, DUnit.s⟩) = fun e => e.ts / 1000 :=
    funext (fun e => windowIdx_int hf (by norm_num) e)
  constructor
  · rw [hwidx]
    decide
  · rw [wcRun_tumbling hf (by norm_num) hf rfl (by decide) (by decide)
      [⟨0, 0⟩, ⟨1000, 1⟩] (by simp) (by decide)]
    rw [List.length_map]
    decide

/-- Witness: the corrected C1 statement at a concrete input — three events
across two windows of the 1-second tumbling window emit exactly the closed
first window's bucket. -/
theorem pondC1_witness :
    (wcRun (windowOf ⟨1, DUnit.s⟩) Trigger.onDiscardedWindow
        [⟨0, 0⟩, ⟨500, 5⟩, ⟨1000, 1⟩]).2 =
      ((([⟨0, 0⟩, ⟨500, 5⟩, ⟨1000, 1⟩] : List Ev).map
          (fun e => e.ts / 1000)).dedup).dropLast.map
        (fun i => (keyOfIdx (windowOf ⟨1, DUnit.s⟩) i,
          ([⟨0, 0⟩, ⟨500, 5⟩, ⟨1000, 1⟩] : List Ev).filter
            (fun e => e.ts / 1000 = i))) :=
  (pondC1 (by decide) (by norm_num [DurS.val, DUnit.ms]) (by norm_num)
    [⟨0, 0⟩, ⟨500, 5⟩, ⟨1000, 1⟩] (by simp) (by decide)).1

theorem isUnitC_iff_mem {c : Char} : isUnitC c = true ↔ c ∈ unitChars := by
  simp [isUnitC, unitChars]

/-- C2 counterexample: the 1-week tumbling window emits the key `"1w-0"` at
`t = 0`, and the index-string decoder rejects it — the decoder's unit class
has no `w`. -/
theorem pondC2_counterexample :
    getIndexKeys (windowOf ⟨1, DUnit.w⟩) 0 = [['1', 'w', '-', '0']] ∧
    isIndexString ['1', 'w', '-', '0'] = false := by
  constructor
  · have hf : (windowOf ⟨1, DUnit.w⟩).freq.val = ((604800000 : ℤ) : ℚ) := by
      norm_num [windowOf, DurS.val, DUnit.ms]
    have hd : (windowOf ⟨1, DUnit.w⟩).dur.val = ((604800000 : ℤ) : ℚ) := by
      norm_num [windowOf, DurS.val, DUnit.ms]
    rw [getIndexKeys_tumbling hf (by norm_num) hd rfl 0]
    have h0 : (0 : ℤ) / 604800000 = 0 := by decide
    rw [h0]
    unfold keyOfIdx windowChars periodChars
    rw [if_pos (show (windowOf ⟨1, DUnit.w⟩).freq.val =
          (windowOf ⟨1, DUnit.w⟩).dur.val from rfl),
        if_pos (show (windowOf ⟨1, DUnit.w⟩).offset = 0 from rfl)]
    decide
  · decide

/-- C2 (corrected): the round trip holds only away from the failure cases —
for a window whose duration and frequency use whole-millisecond units other
than weeks, with nonnegative offset, at a time at least one duration after
epoch (so every emitted period index is nonnegative): every key of
`getIndexSet(t)` is accepted by the decoder and decodes to a time range
`[i·f, i·f + d]` containing `t`. With a week unit, or a negative period
index (whose key then holds a second `-`), the key is rejected instead. -/
theorem pondC2 {w : WindowS} {fz dz : ℤ} (hf : w.freq.val = (fz : ℚ))
    (hfz : 1 ≤ fz) (hd : w.dur.val = (dz : ℚ)) (hdu : w.dur.unit ≠ DUnit.w)
    (hfu : w.freq.unit ≠ DUnit.w) (ho : 0 ≤ w.offset) {t : ℤ} (ht : dz ≤ t) :
    ∀ k ∈ getIndexKeys w t, isIndexString k = true ∧
      ∃ r : ℚ × ℚ, timeRangeFromIndexChars k = some r ∧
        r.1 ≤ (t : ℚ) ∧ (t : ℚ) < r.2 := by
  intro k hk
  obtain ⟨i, hi, rfl⟩ := List.mem_map.mp hk
  obtain ⟨hlo, hhi⟩ := getIndexList_bounds hf hfz hd hi
  have hipos : 0 ≤ i := by
    by_contra hneg
    have h1 : i * fz ≤ 0 := by
      have : i ≤ 0 := by omega
      exact mul_nonpos_iff.mpr (Or.inr ⟨by omega, by omega⟩)
    omega
  constructor
  · unfold isIndexString
    rw [show windowChars w ++ '-' :: intToChars i =
        windowChars w ++ '-' :: intToChars i from rfl]
    rw [parseIndexChars_key hdu hfu ho hipos]
    rfl
  · refine ⟨((i : ℚ) * w.freq.val, (i : ℚ) * w.freq.val + w.dur.val),
      timeRangeFromIndexChars_key hdu hfu ho hipos, ?_, ?_⟩
    · dsimp only
      rw [hf]
      have h2 : ((i * fz : ℤ) : ℚ) ≤ ((t : ℤ) : ℚ) := by exact_mod_cast hhi
      push_cast at h2
      linarith
    · dsimp only
      rw [hf, hd]
      have h2 : ((t - dz : ℤ) : ℚ) < ((i * fz : ℤ) : ℚ) := by exact_mod_cast hlo
      push_cast at h2
      linarith

/-- Witness: the corrected C2 at the tumbling 30-minute window and
`t = 5400005` (inside the fourth half-hour window `"30m-3"`). -/
theorem pondC2_witness :
    isIndexString (keyOfIdx (windowOf ⟨30, DUnit.m⟩) 3) = true ∧
    ∃ r : ℚ × ℚ,
      timeRangeFromIndexChars (keyOfIdx (windowOf ⟨30, DUnit.m⟩) 3) = some r ∧
      r.1 ≤ ((5400005 : ℤ) : ℚ) ∧ ((5400005 : ℤ) : ℚ) < r.2 := by
  have hf : (windowOf ⟨30, DUnit.m⟩).freq.val = ((1800000 : ℤ) : ℚ) := by
    norm_num [windowOf, DurS.val, DUnit.ms]
  refine pondC2 hf (by norm_num) hf
    (by decide) (by decide) (by decide) (t := 5400005) (by norm_num)
    (keyOfIdx (windowOf ⟨30, DUnit.m⟩) 3) ?_
  rw [getIndexKeys_tumbling hf (by norm_num) hf rfl]
  have h3 : (5400005 : ℤ) / 1800000 = 3 := by decide
  unfold getIndexKeys at *
  rw [h3]
  exact List.mem_singleton.mpr rfl

/-- C3 counterexample: `"1w-123"` belongs to the spec grammar (unit class
`[nulsmhdw]`) but the decoder's `isIndexString` rejects it — the regex of
util.js has unit class `[smhdlun]`, without `w`. -/
theorem pondC3_counterexample :
    IndexLang specUnitChars ['1', 'w', '-', '1', '2', '3'] ∧
    isIndexString ['1', 'w', '-', '1', '2', '3'] = false := by
  constructor
  · refine ⟨[], ['1'], 'w', [], ['1', '2', '3'], rfl, ?_, ?_, ?_, ?_, ?_⟩
    · intro b hb
      simp at hb
    · exact ⟨by decide, by decide⟩
    · decide
    · intro o hob
      simp at hob
    · exact ⟨by decide, by decide⟩
  · decide

/-- C3 (corrected): the period-form strings the decoder accepts are exactly
the spec grammar with the unit class shrunk to `[smhdlun]`: `w` (weeks) is
missing from the decoder's class, so `"1w-123"` and every other week-unit
string of the spec grammar is rejected. -/
theorem pondC3 (cs : List Char) :
    isIndexString cs = true ↔ IndexLang unitChars cs := by
  constructor
  · intro h
    unfold isIndexString at h
    obtain ⟨p, hp⟩ := Option.isSome_iff_exists.mp h
    exact parseIndexChars_sound hp
  · rintro ⟨bs, fds, fu, os, ids, heq, hbs, hfds, hfu, hos, hids⟩
    have hbs2 : ∀ b ∈ bs, DigitRun b.1 ∧ isUnitC b.2 = true := fun b hb =>
      ⟨(hbs b hb).1, isUnitC_iff_mem.mpr (hbs b hb).2⟩
    have hcs : cs = renderBlocks bs (fds ++ fu :: renderOffs os ('-' :: ids)) := by
      rw [renderBlocks_eq, renderOffs_eq, heq]
      simp
    rw [hcs]
    unfold isIndexString
    rw [parseIndexChars_complete hbs2 hfds (isUnitC_iff_mem.mpr hfu) hos hids]
    rfl

/-! ## Claims C7 and C8: Period.next and getIndexSet cardinality -/

theorem ceil_int_div {a b : ℤ} (hb : 1 ≤ b) : ⌈(a : ℚ) / (b : ℚ)⌉ = -(-a / b) := by
  rw [show ((a : ℚ) / (b : ℚ)) = -(((-a : ℤ) : ℚ) / (b : ℚ)) by push_cast; ring]
  rw [Int.ceil_neg, floor_int_div hb]

/-- `Period.next` over whole-millisecond data, with the ceiling written as
integer division. -/
theorem periodNext_ediv {fz : ℤ} (hf : 1 ≤ fz) (o t : ℤ) :
    periodNext (fz : ℚ) o t = -(-(t - o) / fz) * fz + o +
      (if -(-(t - o) / fz) * fz + o = t then fz else 0) := by
  rw [periodNext_int hf o t]
  have hc : ⌈((t : ℚ) - o) / (fz : ℚ)⌉ = -(-(t - o) / fz) := by
    rw [show ((t : ℚ) - (o : ℚ)) = (((t - o : ℤ)) : ℚ) by push_cast; ring]
    exact ceil_int_div hf
  rw [hc]

/-- C7 counterexample: for the fractional frequency `duration("500u")`
(half a millisecond) and `t = 0`, `next(t)` is `0`, NOT strictly greater
than `t`: the candidate `0.5` ms is truncated to `0` by the `time(...)`
constructor wrapping the result. -/
theorem pondC7_counterexample :
    (DurS.mk 500 DUnit.u).val = 1 / 2 ∧
    ¬ (0 < periodNext (DurS.mk 500 DUnit.u).val 0 0) := by
  have hval : (DurS.mk 500 DUnit.u).val = 1 / 2 := by
    norm_num [DurS.val, DUnit.ms]
  refine ⟨hval, ?_⟩
  rw [hval]
  have hkey : periodNext (1 / 2 : ℚ) 0 0 = 0 := by
    unfold periodNext
    have h1 : ((((0 : ℤ) : ℚ)) - ((0 : ℤ) : ℚ)) / (1 / 2 : ℚ) = 0 := by norm_num
    rw [h1]
    norm_num [jsTrunc]
  rw [hkey]
  omega

/-- C7 (corrected): the claimed properties of `Period.next` hold once the
frequency is a whole, positive number of milliseconds (`fz` ms, `fz ≥ 1`):
`next(t) > t`, `next(t)` is aligned, and for aligned `t`,
`next(t) = t + frequency`. For fractional frequencies (`n`/`u` units) the
`Date` truncation inside `time(...)` can return `t` itself. -/
theorem pondC7 {f : ℚ} {fz : ℤ} (hval : f = (fz : ℚ)) (hfz : 1 ≤ fz)
    (o t : ℤ) :
    t < periodNext f o t ∧
    periodIsAligned f o (periodNext f o t) = true ∧
    (periodIsAligned f o t = true → periodNext f o t = t + fz) := by
  subst hval
  exact ⟨(periodNext_bounds hfz o t).1, periodNext_aligned hfz o t,
    periodNext_of_aligned hfz o t⟩

/-- Witness: C7 at frequency 1000 ms, offset 0, and the aligned instant
`t = 2000`. -/
theorem pondC7_witness :
    (2000 : ℤ) < periodNext ((1000 : ℤ) : ℚ) 0 2000 ∧
    periodIsAligned ((1000 : ℤ) : ℚ) 0 (periodNext ((1000 : ℤ) : ℚ) 0 2000) = true ∧
    periodNext ((1000 : ℤ) : ℚ) 0 2000 = 2000 + 1000 := by
  have h := pondC7 (f := ((1000 : ℤ) : ℚ)) rfl (by norm_num) 0 2000
  have halign : periodIsAligned ((1000 : ℤ) : ℚ) 0 2000 = true := by
    rw [periodIsAligned_iff (by norm_num)]
    exact ⟨2, by push_cast; norm_num⟩
  exact ⟨h.1, h.2.1, h.2.2 halign⟩

theorem two_le_length {α : Type} {l : List α} {a b : α} (ha : a ∈ l)
    (hb : b ∈ l) (hab : a ≠ b) : 2 ≤ l.length := by
  match l with
  | [] => simp at ha
  | [x] =>
    simp at ha hb
    subst ha
    subst hb
    exact absurd rfl hab
  | x :: y :: rest =>
    simp [List.length]

theorem periodNext_half_zero : periodNext (1 / 2 : ℚ) 0 0 = 0 := by
  unfold periodNext
  have h1 : ((((0 : ℤ) : ℚ)) - ((0 : ℤ) : ℚ)) / (1 / 2 : ℚ) = 0 := by norm_num
  rw [h1]
  norm_num [jsTrunc]

/-- C8 counterexample, two failure modes of "a tumbling window yields
exactly one Index": a tumbling 10 ms window whose period carries offset 3
yields an EMPTY index set at `t = 35` (`scanBegin = next(25) = 33`, first
tried index `ceil(33/10) = 4`, and `4 * 10 ≤ 35` already fails); and the
unoffset FRACTIONAL tumbling window `duration("500u")` (0.5 ms) yields
THREE indexes at `t = 1` (the `Date` truncation collapses `scanBegin` to
0, and the loop adds 0, 1 and 2). -/
theorem pondC8_counterexample :
    getIndexList ⟨⟨10, DUnit.l⟩, ⟨10, DUnit.l⟩, 3⟩ 35 = [] ∧
    getIndexList ⟨⟨500, DUnit.u⟩, ⟨500, DUnit.u⟩, 0⟩ 1 = [0, 1, 2] := by
  constructor
  · have hf : (WindowS.mk ⟨10, DUnit.l⟩ ⟨10, DUnit.l⟩ 3).freq.val = ((10 : ℤ) : ℚ) := by
      norm_num [DurS.val, DUnit.ms]
    have hd : (WindowS.mk ⟨10, DUnit.l⟩ ⟨10, DUnit.l⟩ 3).dur.val = ((10 : ℤ) : ℚ) := by
      norm_num [DurS.val, DUnit.ms]
    have hscan : scanBeginOf ⟨⟨10, DUnit.l⟩, ⟨10, DUnit.l⟩, 3⟩ 35 = 33 := by
      rw [scanBeginOf_int hd, hf, periodNext_ediv (by norm_num)]
      decide
    have hp0 : periodIndex0 ⟨⟨10, DUnit.l⟩, ⟨10, DUnit.l⟩, 3⟩ 35 = 4 := by
      unfold periodIndex0
      rw [hscan, hf, ceil_int_div (by norm_num)]
      decide
    have hhi : periodIndexHi ⟨⟨10, DUnit.l⟩, ⟨10, DUnit.l⟩, 3⟩ 35 = 3 := by
      unfold periodIndexHi
      rw [hf, floor_int_div (by norm_num)]
      decide
    unfold getIndexList
    rw [hp0, hhi]
    decide
  · have hvf : (WindowS.mk ⟨500, DUnit.u⟩ ⟨500, DUnit.u⟩ 0).freq.val = (1 / 2 : ℚ) := by
      norm_num [DurS.val, DUnit.ms]
    have hvd : (WindowS.mk ⟨500, DUnit.u⟩ ⟨500, DUnit.u⟩ 0).dur.val = (1 / 2 : ℚ) := by
      norm_num [DurS.val, DUnit.ms]
    have hscan : scanBeginOf ⟨⟨500, DUnit.u⟩, ⟨500, DUnit.u⟩, 0⟩ 1 = 0 := by
      unfold scanBeginOf
      simp only [hvd, hvf]
      have h2 : ((1 : ℤ) : ℚ) - (1 / 2 : ℚ) = 1 / 2 := by push_cast; norm_num
      rw [h2]
      have h3 : jsTrunc (1 / 2 : ℚ) = 0 := by
        unfold jsTrunc
        rw [if_neg (by norm_num)]
        norm_num
      rw [h3]
      exact periodNext_half_zero
    have hp0 : periodIndex0 ⟨⟨500, DUnit.u⟩, ⟨500, DUnit.u⟩, 0⟩ 1 = 0 := by
      unfold periodIndex0
      rw [hscan, hvf]
      norm_num
    have hhi : periodIndexHi ⟨⟨500, DUnit.u⟩, ⟨500, DUnit.u⟩, 0⟩ 1 = 2 := by
      unfold periodIndexHi
      rw [hvf]
      norm_num
    unfold getIndexList
    rw [hp0, hhi]
    decide

/-- C8 (corrected): for windows whose frequency and duration are whole,
positive numbers of milliseconds and whose period offset is 0 — both
restrictions are necessary: a nonzero offset can EMPTY the set even for a
tumbling window, and a fractional (sub-millisecond) tumbling window can
yield several indexes (see the counterexample) — : a tumbling window
(duration = frequency) yields exactly one Index, `floor(t / f)`; the
emitted indexes are exactly the windows containing `t`, in strictly
ascending order without duplicates; and a sliding window yields more than
one Index provided `duration ≥ 2 · frequency` — for `f < d < 2f` the set
can be a single Index, so "duration > frequency" alone does not give
several. -/
theorem pondC8 {w : WindowS} {fz dz : ℤ} (hf : w.freq.val = (fz : ℚ))
    (hfz : 1 ≤ fz) (hd : w.dur.val = (dz : ℚ)) (ho : w.offset = 0) (t : ℤ) :
    (dz = fz → getIndexList w t = [t / fz]) ∧
    (∀ i : ℤ, i ∈ getIndexList w t ↔ (t - dz < i * fz ∧ i * fz ≤ t)) ∧
    (getIndexList w t).Pairwise (· < ·) ∧
    (2 * fz ≤ dz → 2 ≤ (getIndexList w t).length) := by
  refine ⟨?_, fun i => getIndexList_mem_iff hf hfz hd ho, getIndexList_pairwise w t, ?_⟩
  · intro hdf
    subst hdf
    rw [getIndexList_tumbling hf hfz hd ho t, floor_int_div hfz]
  · intro h2f
    have hdm := Int.ediv_add_emod t fz
    have hm0 := Int.emod_nonneg t (by omega : fz ≠ 0)
    have hmlt := Int.emod_lt_of_pos t (by omega : 0 < fz)
    have hq := Int.ediv_add_emod t fz
    have hmem1 : t / fz ∈ getIndexList w t := by
      rw [getIndexList_mem_iff hf hfz hd ho]
      constructor
      · nlinarith [hdm, hmlt]
      · nlinarith [hdm, hm0]
    have hmem2 : t / fz - 1 ∈ getIndexList w t := by
      rw [getIndexList_mem_iff hf hfz hd ho]
      constructor
      · have hx : (t / fz - 1) * fz = (t / fz) * fz - fz := by ring
        nlinarith [hdm, hmlt]
      · have hx : (t / fz - 1) * fz = (t / fz) * fz - fz := by ring
        nlinarith [hdm, hm0]
    exact two_le_length hmem2 hmem1 (by omega)

/-- Witness: C8 at the sliding window `30m@10m` (duration 30 min, frequency
10 min, offset 0) and `t = 25` minutes: at least two indexes, strictly
ascending. -/
theorem pondC8_witness :
    2 ≤ (getIndexList ⟨⟨30, DUnit.m⟩, ⟨10, DUnit.m⟩, 0⟩ 1500000).length ∧
    (getIndexList ⟨⟨30, DUnit.m⟩, ⟨10, DUnit.m⟩, 0⟩ 1500000).Pairwise (· < ·) := by
  have hf : (WindowS.mk ⟨30, DUnit.m⟩ ⟨10, DUnit.m⟩ 0).freq.val
      = ((600000 : ℤ) : ℚ) := by norm_num [DurS.val, DUnit.ms]
  have hd : (WindowS.mk ⟨30, DUnit.m⟩ ⟨10, DUnit.m⟩ 0).dur.val
      = ((1800000 : ℤ) : ℚ) := by norm_num [DurS.val, DUnit.ms]
  have h := pondC8 hf (by norm_num) hd rfl 1500000
  exact ⟨h.2.2.2 (by norm_num), h.2.2.1⟩

/-- C4 (code bug): `removeEvents` re-packs the event list but leaves every
other key's recorded positions untouched, so they point at the old, shifted
positions. From `[{key 0}, {key 1}]`, removing key `0` leaves the key-`1`
event at position `0` while the key map still records position `1` for it:
the key-index invariant does not survive `removeEvents`. -/
theorem pondC4 :
    (removeEvents (collOfList [⟨0, 0⟩, ⟨1, 1⟩]) 0).events = [⟨1, 1⟩] ∧
    (kmGet 1 (removeEvents (collOfList [⟨0, 0⟩, ⟨1, 1⟩]) 0).keyMap).getD [] = [1] ∧
    ¬ keyMapCorrect (removeEvents (collOfList [⟨0, 0⟩, ⟨1, 1⟩]) 0) := by
  refine ⟨by decide, by decide, ?_⟩
  intro h
  have h2 := (h 1 1).mp (by decide)
  exact absurd h2 (by decide)

/-- C6 (code bug): `quantile(2, "value", linear)` on values `[1, 2, 3, 4]`
returns `[2]` — the lower adjacent value — where the spec's linear policy
gives `[2.5]`: the branch conditions test the truthiness of the enum
members themselves (`InterpolationType.lower` is the constant 2), so every
call returns `v0` regardless of `interp`. The error branch for
`n > size` (here `5 > 4`) does behave as claimed. -/
theorem pondC6 :
    quantileC 2 [1, 2, 3, 4] Interp.linear = some [2] ∧
    quantileSpecFn 2 [1, 2, 3, 4] Interp.linear = some [5/2] ∧
    quantileC 5 [1, 2, 3, 4] Interp.linear = none := by
  have hsort : sortQ [1, 2, 3, 4] = [1, 2, 3, 4] := by
    unfold sortQ
    simp only [List.foldr]
    norm_num [sortedInsert]
  have hpos : qPos 4 2 1 = 3/2 := by
    unfold qPos
    norm_num
  have hidx : qIdx 4 2 1 = 1 := by
    unfold qIdx
    rw [hpos]
    norm_num
  have hcell : quantileCellWith quantilePickCode [1, 2, 3, 4] 2 1 = some 2 := by
    unfold quantileCellWith
    simp only [List.length_cons, List.length_nil]
    rw [if_pos (by rw [hidx]; norm_num)]
    rw [hidx, hpos]
    norm_num [quantilePickCode, interpCode, List.get?]
  have hcell2 : quantileCellWith (quantilePickSpec Interp.linear) [1, 2, 3, 4] 2 1
      = some (5/2) := by
    unfold quantileCellWith
    simp only [List.length_cons, List.length_nil]
    rw [if_pos (by rw [hidx]; norm_num)]
    rw [hidx, hpos]
    norm_num [quantilePickSpec, List.get?]
  refine ⟨?_, ?_, ?_⟩
  · unfold quantileC quantileRunWith
    rw [if_neg (by norm_num), hsort]
    simp only [show (2 : ℕ) - 1 = 1 from rfl, List.range_succ, List.range_zero,
      List.nil_append, List.filterMap_cons, List.filterMap_nil]
    rw [show (0 : ℕ) + 1 = 1 from rfl, hcell]
  · unfold quantileSpecFn quantileRunWith
    rw [if_neg (by norm_num), hsort]
    simp only [show (2 : ℕ) - 1 = 1 from rfl, List.range_succ, List.range_zero,
      List.nil_append, List.filterMap_cons, List.filterMap_nil]
    rw [show (0 : ℕ) + 1 = 1 from rfl, hcell2]
  · unfold quantileC quantileRunWith
    rw [if_pos (by norm_num)]

theorem filter_isSome_filterMap (l : List (Option ℚ)) :
    (l.filter (fun v => v.isSome)).filterMap id = l.filterMap id := by
  induction l with
  | nil => rfl
  | cons x xs ih =>
    cases x with
    | none => simpa [List.filter_cons] using ih
    | some a => simpa [List.filter_cons] using ih

theorem filter_isSome_length (l : List (Option ℚ)) :
    (l.filter (fun v => v.isSome)).length = (l.filterMap id).length := by
  induction l with
  | nil => rfl
  | cons x xs ih =>
    cases x with
    | none => simpa [List.filter_cons] using ih
    | some a => simpa [List.filter_cons] using ih

theorem filter_isSome_idem (l : List (Option ℚ)) :
    (l.filter (fun v => v.isSome)).filter (fun v => v.isSome) =
      l.filter (fun v => v.isSome) :=
  List.filter_eq_self.mpr (fun a ha => List.of_mem_filter ha)

/-- The `ignoreMissing` stdev radicand in closed form: squared deviations
of the present values from their mean, over the ORIGINAL length. -/
theorem stdevRad_ignore (vs : List (Option ℚ)) :
    stdevRad CleanS.ignoreMissing vs =
      some ((((vs.filterMap id).map
        (fun v => ((v - (vs.filterMap id).sum / ((vs.filterMap id).length : ℚ)) ^ 2 : ℚ))).sum)
        / (vs.length : ℚ)) := by
  simp only [stdevRad, applyClean, avgF]
  rw [filter_isSome_idem, filter_isSome_filterMap, filter_isSome_length]

/-- C9 (confirmed): with the default `ignoreMissing` cleaning, the `stdev`
radicand is the sum of squared deviations of the PRESENT values from their
mean divided by the length of the ORIGINAL input list, so dropped missing
values still count in the divisor: `[1, missing, 3]` gives `2/3`, not the
`2/2` a cleaned-length divisor would give. -/
theorem pondC9 :
    (∀ vs : List (Option ℚ), stdevRad CleanS.ignoreMissing vs =
      some ((((vs.filterMap id).map
        (fun v => ((v - (vs.filterMap id).sum / ((vs.filterMap id).length : ℚ)) ^ 2 : ℚ))).sum)
        / (vs.length : ℚ))) ∧
    stdevRad CleanS.ignoreMissing [some 1, none, some 3] = some (2/3) := by
  refine ⟨stdevRad_ignore, ?_⟩
  rw [stdevRad_ignore [some 1, none, some 3]]
  have hfm : ([some 1, none, some 3] : List (Option ℚ)).filterMap id = [1, 3] := by
    simp [List.filterMap]
  rw [hfm]
  norm_num

/-- C10 (confirmed): `median` sorts with the default lexicographic string
comparison: `[2, 9, 10]` sorts to `[10, 2, 9]`, whose middle element is
`2` — not the numeric median `9`; the even case inherits the same order
(`[2, 9, 10, 11]` sorts to `[10, 11, 2, 9]`, middle pair mean `13/2`,
numeric median `19/2`). -/
theorem pondC10 :
    jsSort [2, 9, 10] = [10, 2, 9] ∧
    medianF [some 2, some 9, some 10] = some 2 ∧ (2 : ℚ) ≠ 9 ∧
    medianF [some 2, some 9, some 10, some 11] = some (13/2) ∧
    (13/2 : ℚ) ≠ 19/2 := by
  have hsort3 : jsSort [2, 9, 10] = [10, 2, 9] := by decide
  have hsort4 : jsSort [2, 9, 10, 11] = [10, 11, 2, 9] := by decide
  have hfm3 : ([some 2, some 9, some 10] : List (Option ℤ)).filterMap id
      = [2, 9, 10] := by simp [List.filterMap]
  have hfm4 : ([some 2, some 9, some 10, some 11] : List (Option ℤ)).filterMap id
      = [2, 9, 10, 11] := by simp [List.filterMap]
  refine ⟨hsort3, ?_, by norm_num, ?_, by norm_num⟩
  · unfold medianF
    rw [hfm3, hsort3]
    norm_num
  · unfold medianF
    rw [hfm4, hsort4]
    norm_num

/-- C5 (code bug): the first `addEvent` call builds its local `eventList`
correctly — `[event]` exactly when the event is aligned — but then returns
`Immutable.List()`, a fresh EMPTY list, instead of
`Immutable.List(eventList)` (align.js, in time.js lines 208-214). So the
returned list is empty for EVERY first event, aligned or not, and the
claimed (and specified) emit-iff-aligned behaviour fails: at the aligned
instant 2000 of the 1-second period the event is recorded as previous and
pushed onto `eventList`, yet nothing is returned. -/
theorem pondC5 :
    (∀ (f : ℚ) (o : ℤ) (e : Ev), (alignFirstAddEvent f o e).2.2 = []) ∧
    periodIsAligned ((1000 : ℤ) : ℚ) 0 2000 = true ∧
    (alignFirstAddEvent ((1000 : ℤ) : ℚ) 0 ⟨2000, 0⟩).1 = some ⟨2000, 0⟩ ∧
    (alignFirstAddEvent ((1000 : ℤ) : ℚ) 0 ⟨2000, 0⟩).2.1 = [⟨2000, 0⟩] ∧
    (alignFirstAddEvent ((1000 : ℤ) : ℚ) 0 ⟨2000, 0⟩).2.2 = [] := by
  have halign : periodIsAligned ((1000 : ℤ) : ℚ) 0 2000 = true := by
    rw [periodIsAligned_iff (by norm_num)]
    exact ⟨2, by push_cast; norm_num⟩
  refine ⟨fun f o e => rfl, halign, rfl, ?_, rfl⟩
  show (if periodIsAligned ((1000 : ℤ) : ℚ) 0 ((⟨2000, 0⟩ : Ev)).ts = true
        then [(⟨2000, 0⟩ : Ev)] else []) = [⟨2000, 0⟩]
  rw [if_pos halign]

end Pond
